import Mathlib

/-!
Verification of the Hiddifynext proxy-configuration aggregation pipeline.

The repository has two pipeline variants:
  * `collector.py`  — fetch, per-protocol parse (`parse_vmess`, `parse_general`),
    dedup by the string key `f"{protocol}:{host}:{port}"` (first hit wins),
    TCP-probe filter, and an `Index.html` writer that copies the leading
    comment header and the trailing `<script>` block of the previous artifact.
  * `update_configs.py` — fetch (`fetch_source`), remark rewrite
    (`_remark_vmess`, `_remark_url_fragment`), health filter (`is_healthy`),
    and a writer (`update_index_file`) that emits metadata, a generated
    redirect block, and the deduplicated configs sorted by lowercase.

Modelling conventions (a shallow embedding over executable Lean functions):
  * Python text and byte strings are both modelled as `List Nat` of byte
    values; the UTF-8 encode/decode steps between them (which the scripts
    apply with `errors="ignore"` / guarded by `try`) are the identity in the
    model, so non-ASCII constants such as the remark are written as their
    UTF-8 byte sequences.
  * `json.dumps` with `ensure_ascii=True` (collector) escapes non-ASCII
    characters; the model renders raw bytes in both variants.  No theorem
    below inspects the bytes of a collector-re-encoded vmess link.
  * Python `set` iteration order is modelled as a canonical enumeration of
    the set contents (sorted by a fixed total order): CPython's set order is
    a function of the stored elements, not of insertion order.
  * Network effects (`socket`, `requests`) are modelled as oracle functions
    passed explicitly to the health-check stage.
  * A Python statement that raises an uncaught exception is modelled as
    `Option`/`Except` failure of the enclosing function.
-/

namespace Hiddify

/-- Bytes of an ASCII string literal (each character is one byte). -/
def bytes (s : String) : List Nat := s.toList.map Char.toNat

/-- Python whitespace bytes recognised by `str.strip()` (ASCII range). -/
def isSpaceB (b : Nat) : Bool := b = 32 || b = 9 || b = 10 || b = 13 || b = 11 || b = 12

/-- `str.strip()`: drop whitespace from both ends. -/
def pyStrip (l : List Nat) : List Nat :=
  ((l.dropWhile isSpaceB).reverse.dropWhile isSpaceB).reverse

/-- `str.lower()` restricted to ASCII letters (the only case the pipeline needs). -/
def lowerB (l : List Nat) : List Nat :=
  l.map (fun b => if 65 ≤ b ∧ b ≤ 90 then b + 32 else b)

/-- Scanner for the first occurrence of `pat`, carrying the current index. -/
def findSubA (pat : List Nat) : Nat → List Nat → Option Nat
  | i, [] => if pat.isPrefixOf [] then some i else none
  | i, c :: rest =>
    if pat.isPrefixOf (c :: rest) then some i else findSubA pat (i + 1) rest

/-- Position of the first occurrence of `pat` in `l` (`str.find`). -/
def findSub (pat l : List Nat) : Option Nat := findSubA pat 0 l

/-- Substring test: does `pat` occur contiguously inside `l`? (`pat in l`). -/
def containsSub (pat l : List Nat) : Bool := (findSub pat l).isSome

/-- `s.split(pat, 1)`: the part before and after the first occurrence of `pat`. -/
def splitFirstSub (pat l : List Nat) : Option (List Nat × List Nat) :=
  (findSub pat l).map (fun i => (l.take i, l.drop (i + pat.length)))

/-- The segment of `l` before the first occurrence of byte `c` (all of `l` if absent). -/
def takeUntilByte (c : Nat) (l : List Nat) : List Nat := l.takeWhile (· ≠ c)

/-- `s.rsplit(c, 1)` on a single byte: parts before/after the last occurrence. -/
def splitLastByte (c : Nat) (l : List Nat) : Option (List Nat × List Nat) :=
  match splitFirstSub [c] l.reverse with
  | some (a, b) => some (b.reverse, a.reverse)
  | none => none

/-- `pat.replace(old, new)` with `new = ""`: delete every occurrence of `pat`
(scanning left to right, as Python does), with explicit fuel for termination. -/
def replaceAllAux (pat : List Nat) (fuel : Nat) (l : List Nat) : List Nat :=
  match fuel, l with
  | 0, l => l
  | _, [] => []
  | fuel + 1, c :: rest =>
    if pat ≠ [] ∧ pat.isPrefixOf (c :: rest) then
      replaceAllAux pat fuel ((c :: rest).drop pat.length)
    else
      c :: replaceAllAux pat fuel rest

/-- `l.replace(pat, "")` for nonempty `pat`. -/
def replaceAll (pat l : List Nat) : List Nat := replaceAllAux pat l.length l

/-- `s.startswith(p)`. -/
def startsWithB (p l : List Nat) : Bool := p.isPrefixOf l

/-- Decimal digits of a natural number, as ASCII bytes, with fuel. -/
def natDigitsAux : Nat → Nat → List Nat
  | 0, n => [48 + n % 10]
  | fuel + 1, n => if n < 10 then [48 + n] else natDigitsAux fuel (n / 10) ++ [48 + n % 10]

/-- `str(n)` for a natural number. -/
def natDigits (n : Nat) : List Nat := natDigitsAux n n

/-- `str(i)` for a Python integer (possibly negative). -/
def intStr (i : Int) : List Nat :=
  if i < 0 then 45 :: natDigits i.natAbs else natDigits i.natAbs

/-- Accumulate ASCII digit bytes into the number they denote. -/
def digitsToNat (l : List Nat) : Nat := l.foldl (fun a d => a * 10 + (d - 48)) 0

def isDigitB (b : Nat) : Bool := 48 ≤ b ∧ b ≤ 57

/-- `int(s)` on an optionally signed decimal string (the shape the pipeline
feeds it); any other shape raises `ValueError`, modelled as `none`. -/
def pyInt (l : List Nat) : Option Int :=
  let t := pyStrip l
  match t with
  | 45 :: ds => if ds ≠ [] ∧ ds.all isDigitB then some (-(digitsToNat ds : Int)) else none
  | 43 :: ds => if ds ≠ [] ∧ ds.all isDigitB then some (digitsToNat ds : Int) else none
  | ds => if ds ≠ [] ∧ ds.all isDigitB then some (digitsToNat ds : Int) else none

/-! ## Base64 (`base64.b64decode` / `b64encode` / the urlsafe variants)

Encoding is split into a byte→sextet phase and a sextet→character phase.
Decoding follows CPython `binascii.a2b_base64` in non-strict mode: characters
outside the alphabet are discarded, the remaining length must be a multiple
of four, and at most two `=` pads may close the data. -/

/-- Character of a sextet, parameterised by the two final alphabet entries
(`+`/`/` for the standard alphabet, `-`/`_` for the urlsafe one). -/
def sextetChar (c62 c63 n : Nat) : Nat :=
  if n < 26 then 65 + n
  else if n < 52 then 97 + (n - 26)
  else if n < 62 then 48 + (n - 52)
  else if n = 62 then c62 else c63

/-- Standard-alphabet value of a character; `none` means "discard"
(`b64decode` drops `-` and `_` among everything else non-alphabet). -/
def decStd (b : Nat) : Option Nat :=
  if 65 ≤ b ∧ b ≤ 90 then some (b - 65)
  else if 97 ≤ b ∧ b ≤ 122 then some (b - 97 + 26)
  else if 48 ≤ b ∧ b ≤ 57 then some (b - 48 + 52)
  else if b = 43 then some 62
  else if b = 47 then some 63
  else none

/-- Urlsafe decode table: `urlsafe_b64decode` first translates `-`/`_` to
`+`/`/`, so both alphabets are accepted. -/
def decUrl (b : Nat) : Option Nat :=
  if b = 45 then some 62 else if b = 95 then some 63 else decStd b

/-- Byte triples to sextet quadruples, with the short final group handled
as `b64encode` does (before padding). -/
def encSex : List Nat → List Nat
  | [] => []
  | [b0] => [b0 / 4, b0 % 4 * 16]
  | [b0, b1] => [b0 / 4, b0 % 4 * 16 + b1 / 16, b1 % 16 * 4]
  | b0 :: b1 :: b2 :: rest =>
    b0 / 4 :: (b0 % 4 * 16 + b1 / 16) :: (b1 % 16 * 4 + b2 / 64) :: b2 % 64 :: encSex rest

/-- Base64 encoding without padding (`b64encode(..).rstrip(b"=")`). -/
def b64encode (c62 c63 : Nat) (bs : List Nat) : List Nat :=
  (encSex bs).map (sextetChar c62 c63)

/-- Base64 encoding with padding, as `b64encode` itself returns it. -/
def b64encodePadded (c62 c63 : Nat) (bs : List Nat) : List Nat :=
  let e := b64encode c62 c63 bs
  e ++ List.replicate ((4 - e.length % 4) % 4) 61

/-- `s + "=" * (-len(s) % 4)`: the padding fix both scripts apply before decoding. -/
def pyPad4 (l : List Nat) : List Nat :=
  l ++ List.replicate ((4 - l.length % 4) % 4) 61

/-- Sextet quadruples back to byte triples (the arithmetic core of `a2b_base64`). -/
def decodeCore : List Nat → Option (List Nat)
  | [] => some []
  | [_] => none
  | [a, b] => some [a * 4 + b / 16]
  | [a, b, c] => some [a * 4 + b / 16, b % 16 * 16 + c / 4]
  | a :: b :: c :: d :: rest =>
    (decodeCore rest).map
      (fun r => (a * 4 + b / 16) :: (b % 16 * 16 + c / 4) :: (c % 4 * 64 + d) :: r)

/-- `base64.b64decode` (non-strict): discard foreign characters, check the
length is a multiple of four, allow at most two trailing pads, decode. -/
def b64decode (decB : Nat → Option Nat) (l : List Nat) : Option (List Nat) :=
  let cleaned := l.filter (fun b => (decB b).isSome || b = 61)
  if cleaned.length % 4 = 0 then
    let data := cleaned.takeWhile (· ≠ 61)
    let pads := cleaned.drop data.length
    if pads.all (· = 61) ∧ pads.length ≤ 2 then
      decodeCore (data.map (fun b => (decB b).getD 0))
    else none
  else none

/-! ## The flat JSON fragment used by vmess payloads

`json.loads` / `json.dumps` restricted to one flat object whose values are
strings (without escape sequences) or integers — the shape §4.3 of the design
calls "a flat key/value structure".  `dumps` uses the default separators
`", "` and `": "`; duplicate keys on load follow CPython dict semantics
(position of the first occurrence, value of the last). -/

/-- A flat JSON value: an escape-free string or an integer. -/
inductive JVal : Type
  | jstr : List Nat → JVal
  | jnum : Int → JVal
deriving DecidableEq

/-- `json.dumps` of one value. -/
def renderVal : JVal → List Nat
  | .jstr s => 34 :: (s ++ [34])
  | .jnum n => intStr n

/-- `json.dumps` of one `"key": value` pair. -/
def renderEntry (kv : List Nat × JVal) : List Nat :=
  34 :: (kv.1 ++ [34, 58, 32]) ++ renderVal kv.2

/-- `json.dumps` of the entry list, joined by `", "`. -/
def renderEntries : List (List Nat × JVal) → List Nat
  | [] => []
  | [kv] => renderEntry kv
  | kv :: rest => renderEntry kv ++ [44, 32] ++ renderEntries rest

/-- `json.dumps` of a flat object. -/
def jsonRender (m : List (List Nat × JVal)) : List Nat :=
  123 :: (renderEntries m ++ [125])

/-- Is the head of the remainder a decimal digit? (Used to delimit numbers.) -/
def headNonDigit : List Nat → Bool
  | [] => true
  | d :: _ => !isDigitB d

/-- Parse one JSON value, returning it and the remainder. -/
def parseVal (l : List Nat) : Option (JVal × List Nat) :=
  match l with
  | 34 :: rest =>
    let s := rest.takeWhile (· ≠ 34)
    match rest.drop s.length with
    | 34 :: r3 => some (.jstr s, r3)
    | _ => none
  | 45 :: rest =>
    let ds := rest.takeWhile isDigitB
    if ds = [] then none else some (.jnum (-(digitsToNat ds : Int)), rest.drop ds.length)
  | _ =>
    let ds := l.takeWhile isDigitB
    if ds = [] then none else some (.jnum (digitsToNat ds), l.drop ds.length)

/-- Parse one `"key": value` pair. -/
def parseEntry (l : List Nat) : Option ((List Nat × JVal) × List Nat) :=
  match l with
  | 34 :: rest =>
    let k := rest.takeWhile (· ≠ 34)
    match rest.drop k.length with
    | 34 :: 58 :: 32 :: r3 => (parseVal r3).map (fun vr => ((k, vr.1), vr.2))
    | _ => none
  | _ => none

/-- Parse a nonempty `", "`-separated entry list up to the closing brace. -/
def parseEntries (fuel : Nat) (l : List Nat) : Option (List (List Nat × JVal) × List Nat) :=
  match fuel with
  | 0 => none
  | fuel + 1 =>
    match parseEntry l with
    | none => none
    | some (kv, r) =>
      match r with
      | 125 :: r2 => some ([kv], r2)
      | 44 :: 32 :: r2 => (parseEntries fuel r2).map (fun mr => (kv :: mr.1, mr.2))
      | _ => none

/-- Syntactic parse of a whole flat object (duplicate keys still present). -/
def rawJsonParse (l : List Nat) : Option (List (List Nat × JVal)) :=
  match l with
  | 123 :: 125 :: rest => if rest = [] then some [] else none
  | 123 :: rest =>
    match parseEntries rest.length rest with
    | some (m, []) => some m
    | _ => none
  | _ => none

/-- `d[k] = v` on a CPython dict as an association list: an existing key keeps
its position and takes the new value; a new key is appended. -/
def dictSet (m : List (List Nat × JVal)) (k : List Nat) (v : JVal) :
    List (List Nat × JVal) :=
  if m.any (fun kv => kv.1 = k) then
    m.map (fun kv => if kv.1 = k then (k, v) else kv)
  else m ++ [(k, v)]

/-- Build a dict from parsed entries (first position, last value wins). -/
def pyDictOf (l : List (List Nat × JVal)) : List (List Nat × JVal) :=
  l.foldl (fun m kv => dictSet m kv.1 kv.2) []

/-- `json.loads` of a flat object (dict semantics applied to raw entries). -/
def jsonLoads (l : List Nat) : Option (List (List Nat × JVal)) :=
  (rawJsonParse l).map pyDictOf

/-- `d.get(k)`. -/
def dictGet (m : List (List Nat × JVal)) (k : List Nat) : Option JVal :=
  (m.find? (fun kv => kv.1 = k)).map (·.2)

/-- A renderable string: no quote byte and byte-valued entries. -/
def wfStr (s : List Nat) : Prop := 34 ∉ s ∧ ∀ b ∈ s, b < 256

def wfVal : JVal → Prop
  | .jstr s => wfStr s
  | .jnum _ => True

/-- A payload that `dumps` can re-read: well-formed entries and distinct keys. -/
def wfPayload (m : List (List Nat × JVal)) : Prop :=
  (∀ kv ∈ m, wfStr kv.1 ∧ wfVal kv.2) ∧ (m.map Prod.fst).Nodup

/-! ## Repository constants -/

/-- UTF-8 bytes of `update_configs.py`'s `REMARK` string (crown, sparkles and
trademark glyphs written as their UTF-8 byte sequences). -/
def REMARK : List Nat :=
  [226, 152, 172, 32, 83, 72, 206, 158, 78, 32, 65, 105, 226, 156, 168, 32,
   118, 50, 114, 97, 121, 32, 77, 105, 110, 101, 114]

/-- UTF-8 bytes of `collector.py`'s `REMARK_NAME` string. -/
def REMARK_NAME : List Nat :=
  [83, 72, 206, 158, 78, 226, 132, 162, 32, 65, 105, 32, 99, 111, 108, 108,
   101, 99, 116, 111, 114]

def psKey : List Nat := bytes (r"ps")

def addKey : List Nat := bytes (r"add")

def hostKey : List Nat := bytes (r"host")

def portKey : List Nat := bytes (r"port")

def vmessScheme : List Nat := bytes (r"vmess://")

/-- Truthiness of a decoded JSON value under Python `if x:`. -/
def jTruthy : JVal → Bool
  | .jstr s => s ≠ []
  | .jnum n => n ≠ 0

/-- `str(x)` on a decoded JSON value (as used by f-string interpolation). -/
def pyStr : JVal → List Nat
  | .jstr s => s
  | .jnum n => intStr n

/-! ## vmess decode / re-encode (`update_configs.py`) -/

/-- `_decode_vmess_payload`: fix padding, urlsafe-base64-decode, `json.loads`.
(The strict UTF-8 decode between the two is the identity in the byte model;
it only ever rejects payloads, never alters accepted ones.) -/
def decodeVmessPayload (payload : List Nat) : Option (List (List Nat × JVal)) :=
  match b64decode decUrl (pyPad4 payload) with
  | none => none
  | some bs => jsonLoads bs

/-- `_encode_vmess_payload`: `json.dumps(ensure_ascii=False)`, urlsafe-encode,
strip the `=` padding. -/
def encodeVmessPayload (m : List (List Nat × JVal)) : List Nat :=
  b64encode 45 95 (jsonRender m)

/-- `_remark_vmess`: decode the payload, overwrite `ps` with the remark,
re-encode.  An empty (or undecodable) payload yields `None`. -/
def remarkVmess (config : List Nat) : Option (List Nat) :=
  match decodeVmessPayload (config.drop vmessScheme.length) with
  | none => none
  | some data =>
    if data = [] then none
    else some (vmessScheme ++ encodeVmessPayload (dictSet data psKey (.jstr REMARK)))

/-! ## collector.py parsing -/

/-- `parse_vmess`: strip the scheme, fix padding, standard-base64-decode,
`json.loads`, set `ps`, re-encode (padded, standard alphabet), and extract
`add`-or-`host` and `port`.  Any failure yields `(None, None, None)`. -/
def parse_vmess (line : List Nat) : Option (List Nat × Option JVal × Option JVal) :=
  match b64decode decStd (pyPad4 (replaceAll vmessScheme line)) with
  | none => none
  | some bs =>
    match jsonLoads bs with
    | none => none
    | some config =>
      let config2 := dictSet config psKey (.jstr REMARK_NAME)
      let link := vmessScheme ++ b64encodePadded 43 47 (jsonRender config2)
      let host := match dictGet config2 addKey with
        | some v => if jTruthy v then some v else dictGet config2 hostKey
        | none => dictGet config2 hostKey
      some (link, host, dictGet config2 portKey)

/-- The percent-quote of `urllib.parse.quote`: unreserved bytes pass through,
bytes in `safe` pass through, everything else becomes `%XX` (uppercase hex). -/
def hexDigit (n : Nat) : Nat := if n < 10 then 48 + n else 65 + (n - 10)

def pctByte (safe : List Nat) (b : Nat) : List Nat :=
  if (65 ≤ b ∧ b ≤ 90) ∨ (97 ≤ b ∧ b ≤ 122) ∨ (48 ≤ b ∧ b ≤ 57) ∨
      b = 95 ∨ b = 46 ∨ b = 45 ∨ b = 126 ∨ b ∈ safe then [b]
  else [37, hexDigit (b / 16), hexDigit (b % 16)]

def pctQuote (safe : List Nat) (l : List Nat) : List Nat := (l.map (pctByte safe)).flatten

/-- `parse_general`'s `base_url`: the part before the first `#`. -/
def pgBase (url : List Nat) : List Nat :=
  match splitFirstSub [35] url with
  | some p => p.1
  | none => url

/-- `parse_general`'s rewritten link: `f"{base_url}#{quote(REMARK_NAME)}"`
(`requests.utils.quote` keeps `/` safe by default). -/
def pgNewUrl (url : List Nat) : List Nat := pgBase url ++ 35 :: pctQuote [47] REMARK_NAME

/-- `parse_general`'s `body`: the url with every occurrence of
`f"{protocol}://"` deleted. -/
def pgBody (url proto : List Nat) : List Nat := replaceAll (proto ++ bytes (r"://")) url

/-- `parse_general`'s `auth_host_port`: before the first `?`, else before the
first `#`, else everything. -/
def pgAhp (url proto : List Nat) : List Nat :=
  let body := pgBody url proto
  if containsSub [63] body then takeUntilByte 63 body
  else if containsSub [35] body then takeUntilByte 35 body
  else body

/-- `parse_general`'s `host_port`: after the last `@`. -/
def pgHostPort (url proto : List Nat) : List Nat :=
  match splitLastByte 64 (pgAhp url proto) with
  | some p => p.2
  | none => pgAhp url proto

/-- `parse_general`: remark rewrite plus host/port extraction, with the
IPv6-bracket case, the last-colon split, and the port-443 defaults of
`collector.py`.  Returns `(link, host, port)` or `None`. -/
def parse_general (url proto : List Nat) : Option (List Nat × List Nat × Int) :=
  let host_port := pgHostPort url proto
  match host_port with
  | 91 :: _ =>
    match findSub [93] host_port with
    | none => none
    | some i =>
      let host := (host_port.drop 1).take (i - 1)
      let remaining := host_port.drop (i + 1)
      match remaining with
      | 58 :: ps =>
        match pyInt ps with
        | none => none
        | some p => some (pgNewUrl url, host, p)
      | _ => some (pgNewUrl url, host, 443)
  | _ =>
    if containsSub [58] host_port then
      match splitLastByte 58 host_port with
      | some hp =>
        match pyInt hp.2 with
        | none => none
        | some p => some (pgNewUrl url, hp.1, p)
      | none => none
    else some (pgNewUrl url, host_port, 443)

/-! ## collector.py pipeline: dedup, probe filter, artifact writer -/

/-- One parsed entry of `process_configs` (the `{'link','host','port','original'}`
dict, plus the scheme string the dedup key uses). -/
structure CConfig where
  proto : List Nat
  link : List Nat
  host : JVal
  port : JVal
  original : List Nat
deriving DecidableEq

/-- `line.split('://')[0] if '://' in line else None`. -/
def protoOf (line : List Nat) : Option (List Nat) :=
  match splitFirstSub (bytes (r"://")) line with
  | some p => some p.1
  | none => none

def generalProtos : List (List Nat) :=
  [bytes (r"vless"), bytes (r"tuic"), bytes (r"hysteria"), bytes (r"hysteria2"),
   bytes (r"hy2")]

/-- The branch body of `process_configs` for one (already stripped) line: the
protocol dispatch to `parse_vmess`/`parse_general` followed by the
`if link and host and port` truthiness test. -/
def parseLine (line : List Nat) : Option CConfig :=
  match protoOf line with
  | none => none
  | some proto =>
    if proto = bytes (r"vmess") then
      match parse_vmess line with
      | none => none
      | some (link, hostOpt, portOpt) =>
        match hostOpt, portOpt with
        | some h, some p =>
          if jTruthy h ∧ jTruthy p then some ⟨proto, link, h, p, line⟩ else none
        | _, _ => none
    else if proto ∈ generalProtos then
      match parse_general line proto with
      | none => none
      | some (link, h, p) =>
        if h ≠ [] ∧ p ≠ 0 then some ⟨proto, link, .jstr h, .jnum p, line⟩ else none
    else none

/-- The dedup key `f"{protocol}:{host}:{port}"`. -/
def keyOf (c : CConfig) : List Nat :=
  c.proto ++ 58 :: (pyStr c.host ++ 58 :: pyStr c.port)

/-- The `seen`-set loop of `process_configs` over the split lines. -/
def goProcess (seen : List (List Nat)) : List (List Nat) → List CConfig
  | [] => []
  | l :: rest =>
    match parseLine (pyStrip l) with
    | none => goProcess seen rest
    | some c =>
      if keyOf c ∈ seen then goProcess seen rest
      else c :: goProcess (keyOf c :: seen) rest

/-- `content.split('\n')`. -/
def splitOnByte (c : Nat) : List Nat → List (List Nat)
  | [] => [[]]
  | b :: rest =>
    let r := splitOnByte c rest
    if b = c then [] :: r
    else
      match r with
      | h :: t => (b :: h) :: t
      | [] => [[b]]

/-- `process_configs` on an already-split line list. -/
def processLines (lines : List (List Nat)) : List CConfig := goProcess [] lines

/-- `process_configs`. -/
def process_configs (content : List Nat) : List CConfig :=
  processLines (splitOnByte 10 content)

/-- `filter_healthy_configs`: probe every config concurrently (results are
recombined with the submission order by `zip`), keep the `link` of the
successes.  The probe outcome is an oracle parameter. -/
def filter_healthy (probe : JVal → JVal → Bool) (configs : List CConfig) :
    List (List Nat) :=
  let results := configs.map (fun c => probe c.host c.port)
  (configs.zip results).filterMap (fun cr => if cr.2 then some cr.1.link else none)

def scriptTag : List Nat := bytes (r"<script>")

def startsHash (l : List Nat) : Bool := startsWithB [35] l

def isBlankL (l : List Nat) : Bool := pyStrip l = []

/-- The leading block of `#`-comment or blank lines. -/
def headerPart (lines : List (List Nat)) : List (List Nat) :=
  lines.takeWhile (fun l => startsHash l || isBlankL l)

/-- The suffix from the last line containing `<script>`, or `[]` if none. -/
def scriptPart (lines : List (List Nat)) : List (List Nat) :=
  let t := lines.reverse.takeWhile (fun l => !containsSub scriptTag l)
  if t.length = lines.length then []
  else (lines.reverse.take (t.length + 1)).reverse

/-- `collector.update_index_file`, over a file modelled as its list of lines
(each line without its trailing newline; the separator lines the writer adds
with `f.write("\n")` appear as empty lines).  A missing previous artifact
(`none`) makes the function return without writing (`none`). -/
def update_index_coll (prev : Option (List (List Nat))) (configs : List (List Nat)) :
    Option (List (List Nat)) :=
  match prev with
  | none => none
  | some lines =>
    let hdr := headerPart lines
    let pad := if hdr ≠ [] ∧ ¬ isBlankL (hdr.getLastD []) then [([] : List Nat)] else []
    some (hdr ++ pad ++ configs ++ [[]] ++ scriptPart lines)

/-! ## update_configs.py pipeline -/

/-- `.rstrip("\n")`. -/
def rstripNl (l : List Nat) : List Nat := (l.reverse.dropWhile (· = 10)).reverse

def defaultMeta : List (List Nat) :=
  [bytes (r"#profile-title: base64:4pisU0jOnk7ihKI="),
   bytes (r"#profile-update-interval: 1"),
   bytes (r"#subscription-userinfo: upload=0; download=0; total=0; expire=0"),
   bytes (r"#support-url: https://github.com/Shervinuri/Hiddifynext"),
   bytes (r"#profile-web-page-url: https://github.com/Shervinuri/Hiddifynext")]

/-- `read_existing_meta`: leading `#` lines of the previous artifact, or the
documented defaults when the file is missing or holds no metadata. -/
def read_existing_meta (file : Option (List (List Nat))) : List (List Nat) :=
  match file with
  | none => defaultMeta
  | some lines =>
    let meta := (lines.takeWhile (fun l => startsWithB [35] l)).map rstripNl
    if meta = [] then defaultMeta else meta

def DEFAULT_TITLE : List Nat := bytes (r"4pisU0jOnk7ihKI=")

def titleMarker : List Nat := bytes (r"base64:")

def profileTitlePrefix : List Nat := bytes (r"#profile-title")

/-- `_extract_profile_title_base64`: scan the metadata for a
`#profile-title ... base64:` line; `none` models the uncaught `ValueError`
when the marker matches only case-insensitively. -/
def extractProfileTitle : List (List Nat) → Option (List Nat)
  | [] => some DEFAULT_TITLE
  | l :: rest =>
    let lowered := lowerB l
    if startsWithB profileTitlePrefix lowered ∧ containsSub titleMarker lowered then
      match splitFirstSub titleMarker l with
      | none => none
      | some p =>
        let value := pyStrip p.2
        if value ≠ [] then some value else extractProfileTitle rest
    else extractProfileTitle rest

def REDIRECT_URL : List Nat := bytes (r"https://1kb.link/o402sP")

/-- `build_redirect_lines`: the generated `<script>` redirect block (39 is the
apostrophe byte, 34 the quote byte). -/
def buildRedirectLines (meta : List (List Nat)) : Option (List (List Nat)) :=
  match extractProfileTitle meta with
  | none => none
  | some title =>
    let redirect := bytes (r"hiddify://import/") ++ REDIRECT_URL ++ 35 :: title
    some [scriptTag,
          bytes (r"window.location.href = ") ++ 39 :: (redirect ++ [39, 59]),
          bytes (r"</script>"),
          bytes (r"<a href=") ++ 34 :: (redirect ++ 34 :: 62 :: (redirect ++ bytes (r"</a>")))]

/-- Bytewise lexicographic order (Python `<` on strings of bytes). -/
def lexLe : List Nat → List Nat → Bool
  | [], _ => true
  | _ :: _, [] => false
  | a :: as, b :: bs => if a < b then true else if b < a then false else lexLe as bs

def rLex (a b : List Nat) : Prop := lexLe a b = true

instance : DecidableRel rLex := fun a b => instDecidableEqBool (lexLe a b) true

/-- The sort key `lambda x: x.lower()`. -/
def rLower (a b : List Nat) : Prop := lexLe (lowerB a) (lowerB b) = true

instance : DecidableRel rLower := fun a b => instDecidableEqBool (lexLe (lowerB a) (lowerB b)) true

/-- One admissible enumeration of `set(configs)`: the distinct elements in a
fixed order.  Real CPython set iteration order varies with the per-process
string-hash seed and, under slot collisions, with insertion order, so this
fixed choice stands for one possible run; `isSetEnum` quantifies over all
admissible enumerations, and only enumeration-invariant properties
(membership, duplicate-freeness, sortedness of the final stable sort) are
read off this particular one. -/
def pySetList (cs : List (List Nat)) : List (List Nat) :=
  List.insertionSort rLex cs.dedup

/-- `sorted(set(configs), key=lambda x: x.lower())` (Python `sorted` is a
stable sort over the set's enumeration). -/
def pySortedSet (cs : List (List Nat)) : List (List Nat) :=
  List.insertionSort rLower (pySetList cs)

/-- `update_configs.update_index_file`: metadata lines, the generated redirect
block, then the deduplicated configs sorted by lowercase — a full-file
overwrite.  `none` models the uncaught exception from the title extraction.
This specialises `update_index_ucE` to the fixed enumeration `pySetList`. -/
def update_index_uc (meta : List (List Nat)) (configs : List (List Nat)) :
    Option (List (List Nat)) :=
  match buildRedirectLines meta with
  | none => none
  | some rl =>
    some (meta.map rstripNl ++ rl.map rstripNl ++ (pySortedSet configs).map rstripNl)

/-- `enum` is an admissible iteration order of `set(cs)`: the distinct
elements of `cs` in some order.  CPython does not fix which order — it
depends on the per-process string-hash seed and on insertion order under
collisions — so behaviour claimed for every run must hold for every
enumeration satisfying this predicate. -/
def isSetEnum (cs enum : List (List Nat)) : Prop :=
  enum.Nodup ∧ (∀ x ∈ enum, x ∈ cs) ∧ (∀ x ∈ cs, x ∈ enum)

instance (cs enum : List (List Nat)) : Decidable (isSetEnum cs enum) := by
  unfold isSetEnum
  infer_instance

/-- `sorted(set(configs), key=lambda x: x.lower())` over a given set
enumeration.  Python `sorted` is stable, so elements whose lowercase forms
tie keep the enumeration order. -/
def pySortedSetE (enum : List (List Nat)) : List (List Nat) :=
  List.insertionSort rLower enum

/-- `update_configs.update_index_file` over a given enumeration of
`set(configs)` instead of the fixed canonical one. -/
def update_index_ucE (meta enum : List (List Nat)) : Option (List (List Nat)) :=
  match buildRedirectLines meta with
  | none => none
  | some rl =>
    some (meta.map rstripNl ++ rl.map rstripNl ++ (pySortedSetE enum).map rstripNl)

/-- Two case-variant surviving descriptors: distinct strings with equal
lowercase sort keys. -/
def c10A : List Nat := bytes (r"vless://U@h:1#r")

def c10B : List Nat := bytes (r"vless://u@h:1#r")

/-! ## update_configs.py health checks -/

/-- The netloc of `urlsplit` for a `scheme://...` input: between `://` and the
first `/`, `?` or `#`. -/
def urlNetloc (u : List Nat) : List Nat :=
  match splitFirstSub (bytes (r"://")) u with
  | some p => p.2.takeWhile (fun b => b ≠ 47 ∧ b ≠ 63 ∧ b ≠ 35)
  | none => []

/-- CPython `SplitResult._hostinfo`: strip userinfo at the last `@`; brackets
delimit an IPv6 literal; the port is what follows the first `:` after the
host; an empty port string counts as absent. -/
def pyHostInfo (netloc : List Nat) : List Nat × Option (List Nat) :=
  let hostinfo := match splitLastByte 64 netloc with
    | some p => p.2
    | none => netloc
  match splitFirstSub [91] hostinfo with
  | some p =>
    let hostname := p.2.takeWhile (· ≠ 93)
    let afterBr := match splitFirstSub [93] p.2 with
      | some q => q.2
      | none => []
    let port := match splitFirstSub [58] afterBr with
      | some q => q.2
      | none => []
    (hostname, if port = [] then none else some port)
  | none =>
    let hostname := hostinfo.takeWhile (· ≠ 58)
    let port := match splitFirstSub [58] hostinfo with
      | some q => q.2
      | none => []
    (hostname, if port = [] then none else some port)

/-- `SplitResult.port`: `int(port, 10)` plus the 0..65535 range check; a
non-numeric or out-of-range port raises `ValueError` (`error`). -/
def pyPort (ps : List Nat) : Except Unit Nat :=
  match pyInt ps with
  | none => .error ()
  | some p => if 0 ≤ p ∧ p ≤ 65535 then .ok p.toNat else .error ()

/-- `_parse_host_port_from_url`: `urlsplit(config)`, then
`(parsed.hostname, parsed.port)` with `None` when either is missing.
`parsed.hostname` is lowercased. -/
def parseHostPortFromUrl (config : List Nat) : Except Unit (Option (List Nat × Nat)) :=
  let hp := pyHostInfo (urlNetloc config)
  match hp.2 with
  | none => .ok none
  | some ps =>
    match pyPort ps with
    | .error _ => .error ()
    | .ok p => if hp.1 = [] then .ok none else .ok (some (lowerB hp.1, p))

/-- `_parse_host_port_from_vmess`: decode the payload and read `add`/`port`
(`str(host)`, `int(port)`); every failure collapses to `None`. -/
def parseHostPortFromVmess (config : List Nat) : Option (List Nat × Int) :=
  match decodeVmessPayload (config.drop vmessScheme.length) with
  | none => none
  | some data =>
    if data = [] then none
    else
      match dictGet data addKey, dictGet data portKey with
      | some h, some p =>
        if jTruthy h then
          match p with
          | .jnum n => some (pyStr h, n)
          | .jstr s =>
            match pyInt s with
            | some n => some (pyStr h, n)
            | none => none
        else none
      | _, _ => none

/-- `is_healthy`, with the TCP-connect and DNS-resolution outcomes as oracle
parameters; `error` models an uncaught exception inside the probe task. -/
def is_healthy (tcp : List Nat → Int → Bool) (dns : List Nat → Bool)
    (config : List Nat) : Except Unit Bool :=
  let lowered := lowerB config
  if startsWithB (bytes (r"vmess://")) lowered then
    match parseHostPortFromVmess config with
    | none => .ok false
    | some hp => .ok (tcp hp.1 hp.2)
  else if startsWithB (bytes (r"vless://")) lowered then
    match parseHostPortFromUrl config with
    | .error _ => .error ()
    | .ok none => .ok false
    | .ok (some hp) => .ok (tcp hp.1 (hp.2 : Int))
  else if startsWithB (bytes (r"hy2://")) lowered ∨
      startsWithB (bytes (r"hysteria2://")) lowered then
    match parseHostPortFromUrl config with
    | .error _ => .error ()
    | .ok none => .ok false
    | .ok (some hp) => .ok (dns hp.1)
  else .ok false

/-- The health-check collection loop of `main`: `as_completed` yields the
futures in an arbitrary completion order (a permutation of the submitted
configs); a config is kept iff its probe returned `True`, and a probe that
raised is skipped. -/
def mainHealthyUC (hp : List Nat → Except Unit Bool) (order : List (List Nat)) :
    List (List Nat) :=
  order.filterMap (fun c => match hp c with | .ok true => some c | _ => none)

/-! ## update_configs.py remark rewriting and fetching -/

/-- `_remark_url_fragment`: `urlsplit`, replace the fragment with
`quote(REMARK, safe="")`, `urlunsplit`.  `urlsplit` lowercases the scheme;
the fragment starts at the first `#`. -/
def remarkUrlFragment (config : List Nat) : List Nat :=
  match splitFirstSub (bytes (r"://")) config with
  | some p =>
    lowerB p.1 ++ bytes (r"://") ++ takeUntilByte 35 p.2 ++ 35 :: pctQuote [] REMARK
  | none => config

/-- `normalize_config`: vmess payload rewrite or URL fragment rewrite. -/
def normalize_config (config : List Nat) : Option (List Nat) :=
  let lowered := lowerB config
  if startsWithB (bytes (r"vmess://")) lowered then remarkVmess config
  else if startsWithB (bytes (r"vless://")) lowered ||
      startsWithB (bytes (r"hy2://")) lowered ||
      startsWithB (bytes (r"hysteria2://")) lowered then
    some (remarkUrlFragment config)
  else none

instance : IsTotal (List Nat) rLex := by
  constructor
  intro a
  induction a with
  | nil => intro b; left; rfl
  | cons x as ih =>
    intro b
    cases b with
    | nil => right; rfl
    | cons y bs =>
      simp only [rLex, lexLe]
      by_cases hxy : x < y
      · left
        rw [if_pos hxy]
      · by_cases hyx : y < x
        · right
          rw [if_pos hyx]
        · rw [if_neg hxy, if_neg hyx, if_neg (by omega), if_neg (by omega)]
          exact ih bs

instance : IsTrans (List Nat) rLex := by
  constructor
  intro a
  induction a with
  | nil => intro b c _ _; rfl
  | cons x as ih =>
    intro b c hab hbc
    cases b with
    | nil => simp [rLex, lexLe] at hab
    | cons y bs =>
      cases c with
      | nil => simp [rLex, lexLe] at hbc
      | cons z cs =>
        simp only [rLex, lexLe] at hab hbc ⊢
        by_cases hxy : x < y
        · rw [if_pos hxy] at hab
          by_cases hyz : y < z
          · rw [if_pos (by omega)]
          · rw [if_neg hyz] at hbc
            by_cases hzy : z < y
            · rw [if_pos hzy] at hbc
              exact absurd hbc (by simp)
            · rw [if_pos (by omega)]
        · rw [if_neg hxy] at hab
          by_cases hyx : y < x
          · rw [if_pos hyx] at hab
            exact absurd hab (by simp)
          · rw [if_neg hyx] at hab
            by_cases hyz : y < z
            · rw [if_pos (by omega)]
            · rw [if_neg hyz] at hbc
              by_cases hzy : z < y
              · rw [if_pos hzy] at hbc
                exact absurd hbc (by simp)
              · rw [if_neg hzy] at hbc
                rw [if_neg (by omega), if_neg (by omega)]
                exact ih bs cs hab hbc

instance : IsAntisymm (List Nat) rLex := by
  constructor
  intro a
  induction a with
  | nil =>
    intro b _ hba
    cases b with
    | nil => rfl
    | cons y bs => simp [rLex, lexLe] at hba
  | cons x as ih =>
    intro b hab hba
    cases b with
    | nil => simp [rLex, lexLe] at hab
    | cons y bs =>
      simp only [rLex, lexLe] at hab hba
      by_cases hxy : x < y
      · rw [if_neg (by omega), if_pos hxy] at hba
        exact absurd hba (by simp)
      · by_cases hyx : y < x
        · rw [if_neg hxy, if_pos hyx] at hab
          exact absurd hab (by simp)
        · rw [if_neg hxy, if_neg hyx] at hab
          rw [if_neg hyx, if_neg hxy] at hba
          have hxey : x = y := by omega
          rw [hxey, ih bs hab hba]

instance : IsTotal (List Nat) rLower :=
  ⟨fun a b => IsTotal.total (r := rLex) (lowerB a) (lowerB b)⟩

instance : IsTrans (List Nat) rLower :=
  ⟨fun a b c hab hbc =>
    IsTrans.trans (r := rLex) (lowerB a) (lowerB b) (lowerB c) hab hbc⟩

/-- Concrete payload exercising `C2_vmess_roundtrip`. -/
def c2Payload : List (List Nat × JVal) :=
  [(addKey, .jstr (bytes (r"example.com"))), (portKey, .jnum 443),
   (psKey, .jstr (bytes (r"old")))]

/-- The `seen`-set as it stands after `process_configs` has walked `lines`. -/
def keysAfter (seen : List (List Nat)) : List (List Nat) → List (List Nat)
  | [] => seen
  | l :: rest =>
    match parseLine (pyStrip l) with
    | none => keysAfter seen rest
    | some c =>
      if keyOf c ∈ seen then keysAfter seen rest
      else keysAfter (keyOf c :: seen) rest

def c1Line : List Nat := bytes (r"vless://u1@example.com:443?type=ws&security=tls#old-label")

def c1LineB : List Nat :=
  bytes (r"vless://u1@example.com:443?type=ws&security=tls#other-label")

def c1Conf : CConfig := (parseLine (pyStrip c1Line)).getD ⟨[], [], .jnum 0, .jnum 0, []⟩

def c1ConfB : CConfig := (parseLine (pyStrip c1LineB)).getD ⟨[], [], .jnum 0, .jnum 0, []⟩

def c9LineA : List Nat := bytes (r"vless://u1@h.com:443?type=ws#a")

def c9LineB : List Nat := bytes (r"vless://u2@h.com:443?type=grpc&security=none#b")

def c9ConfA : CConfig := (parseLine (pyStrip c9LineA)).getD ⟨[], [], .jnum 0, .jnum 0, []⟩

def c9ConfB : CConfig := (parseLine (pyStrip c9LineB)).getD ⟨[], [], .jnum 0, .jnum 0, []⟩

def c7Url : List Nat := bytes (r"vless://u@example.com?type=ws")

def c7VmessLine : List Nat :=
  vmessScheme ++ b64encodePadded 43 47 (jsonRender [(addKey, .jstr (bytes (r"h")))])

def c7VmessParsed : List Nat × Option JVal × Option JVal :=
  (parse_vmess c7VmessLine).getD ([], none, none)

theorem natDigitsAux_correct (fuel n : Nat) (h : n ≤ fuel) :
    digitsToNat (natDigitsAux fuel n) = n ∧ natDigitsAux fuel n ≠ [] ∧
      (natDigitsAux fuel n).all isDigitB = true := by
  induction fuel generalizing n with
  | zero =>
    interval_cases n
    simp [natDigitsAux, digitsToNat, isDigitB]
  | succ fuel ih =>
    by_cases hn : n < 10
    · simp only [natDigitsAux, if_pos hn]
      refine ⟨by simp [digitsToNat], by simp, ?_⟩
      simp [isDigitB]
      omega
    · simp only [natDigitsAux, if_neg hn]
      have hle : n / 10 ≤ fuel := by omega
      obtain ⟨h1, h2, h3⟩ := ih (n / 10) hle
      refine ⟨?_, by simp, ?_⟩
      · simp only [digitsToNat] at h1 ⊢
        rw [List.foldl_append, h1]
        simp
        omega
      · simp only [List.all_append, h3, Bool.true_and]
        simp [isDigitB]
        omega

theorem natDigits_correct (n : Nat) :
    digitsToNat (natDigits n) = n ∧ natDigits n ≠ [] ∧ (natDigits n).all isDigitB = true :=
  natDigitsAux_correct n n le_rfl

theorem decodeCore_encSex (bs : List Nat) (h : ∀ b ∈ bs, b < 256) :
    decodeCore (encSex bs) = some bs := by
  induction bs using encSex.induct with
  | case1 => rfl
  | case2 b0 =>
    have hb0 : b0 < 256 := h b0 (by simp)
    simp only [encSex, decodeCore, Option.some.injEq, List.cons.injEq, and_true]
    omega
  | case3 b0 b1 =>
    have hb0 : b0 < 256 := h b0 (by simp)
    have hb1 : b1 < 256 := h b1 (by simp)
    simp only [encSex, decodeCore, Option.some.injEq, List.cons.injEq, and_true]
    exact ⟨by omega, by omega⟩
  | case4 b0 b1 b2 rest ih =>
    have hb0 : b0 < 256 := h b0 (by simp)
    have hb1 : b1 < 256 := h b1 (by simp)
    have hb2 : b2 < 256 := h b2 (by simp)
    have hrest : ∀ b ∈ rest, b < 256 := fun b hb => h b (by simp [hb])
    simp only [encSex, decodeCore, ih hrest, Option.map_some', Option.some.injEq,
      List.cons.injEq, and_true]
    exact ⟨by omega, by omega, by omega⟩

theorem encSex_lt (bs : List Nat) (h : ∀ b ∈ bs, b < 256) :
    ∀ s ∈ encSex bs, s < 64 := by
  induction bs using encSex.induct with
  | case1 => simp [encSex]
  | case2 b0 =>
    have hb0 : b0 < 256 := h b0 (by simp)
    simp [encSex]
    omega
  | case3 b0 b1 =>
    have hb0 : b0 < 256 := h b0 (by simp)
    have hb1 : b1 < 256 := h b1 (by simp)
    simp [encSex]
    omega
  | case4 b0 b1 b2 rest ih =>
    have hb0 : b0 < 256 := h b0 (by simp)
    have hb1 : b1 < 256 := h b1 (by simp)
    have hb2 : b2 < 256 := h b2 (by simp)
    have hrest : ∀ b ∈ rest, b < 256 := fun b hb => h b (by simp [hb])
    intro s hs
    simp only [encSex, List.mem_cons] at hs
    rcases hs with rfl | rfl | rfl | rfl | hs
    · omega
    · omega
    · omega
    · omega
    · exact ih hrest s hs

theorem encSex_length_mod (bs : List Nat) : (encSex bs).length % 4 ≠ 1 := by
  induction bs using encSex.induct with
  | case1 => simp [encSex]
  | case2 b0 => simp [encSex]
  | case3 b0 b1 => simp [encSex]
  | case4 b0 b1 b2 rest ih =>
    simp only [encSex, List.length_cons]
    omega

theorem decStd_sextetChar : ∀ s < 64, decStd (sextetChar 43 47 s) = some s ∧
    sextetChar 43 47 s ≠ 61 := by decide

theorem decUrl_sextetChar : ∀ s < 64, decUrl (sextetChar 45 95 s) = some s ∧
    sextetChar 45 95 s ≠ 61 := by decide

theorem takeWhile_append_pads (xs : List Nat) (k : Nat) (h : ∀ x ∈ xs, x ≠ 61) :
    (xs ++ List.replicate k 61).takeWhile (· ≠ 61) = xs ∧
      (xs ++ List.replicate k 61).drop xs.length = List.replicate k 61 := by
  constructor
  · induction xs with
    | nil =>
      cases k with
      | zero => rfl
      | succ k => simp [List.replicate_succ, List.takeWhile]
    | cons x xs ih =>
      have hx : x ≠ 61 := h x (by simp)
      simp only [List.cons_append, List.takeWhile_cons]
      rw [if_pos (by simpa using hx)]
      rw [ih (fun y hy => h y (by simp [hy]))]
  · rw [List.drop_left]

/-- Round-trip through a matched encode/decode alphabet pair. -/
theorem b64_roundtrip (c62 c63 : Nat) (decB : Nat → Option Nat)
    (hdec : ∀ s < 64, decB (sextetChar c62 c63 s) = some s ∧ sextetChar c62 c63 s ≠ 61)
    (bs : List Nat) (h : ∀ b ∈ bs, b < 256) :
    b64decode decB (pyPad4 (b64encode c62 c63 bs)) = some bs := by
  have hlt := encSex_lt bs h
  have hchars : ∀ c ∈ b64encode c62 c63 bs, (decB c).isSome ∧ c ≠ 61 := by
    intro c hc
    simp only [b64encode, List.mem_map] at hc
    obtain ⟨s, hs, rfl⟩ := hc
    obtain ⟨h1, h2⟩ := hdec s (hlt s hs)
    exact ⟨by simp [h1], h2⟩
  set e := b64encode c62 c63 bs with he
  have hlen : e.length = (encSex bs).length := by rw [he]; simp [b64encode]
  have hmod : e.length % 4 ≠ 1 := by rw [hlen]; exact encSex_length_mod bs
  have hkle : (4 - e.length % 4) % 4 ≤ 2 := by omega
  have hfilter : (e ++ List.replicate ((4 - e.length % 4) % 4) 61).filter
        (fun b => (decB b).isSome || b = 61) =
      e ++ List.replicate ((4 - e.length % 4) % 4) 61 := by
    rw [List.filter_eq_self]
    intro b hb
    rcases List.mem_append.mp hb with hb | hb
    · simp [(hchars b hb).1]
    · simp only [List.mem_replicate] at hb
      simp [hb.2]
  have hclean_len : (e ++ List.replicate ((4 - e.length % 4) % 4) 61).length % 4 = 0 := by
    simp only [List.length_append, List.length_replicate]
    omega
  obtain ⟨htw, hdr⟩ :=
    takeWhile_append_pads e ((4 - e.length % 4) % 4) (fun x hx => (hchars x hx).2)
  have hcond : ((List.replicate ((4 - e.length % 4) % 4) 61).all fun b => decide (b = 61)) = true
      ∧ (List.replicate ((4 - e.length % 4) % 4) 61).length ≤ 2 := by
    refine ⟨?_, by simpa using hkle⟩
    simp [List.all_eq_true, List.mem_replicate]
  have hmapmap : e.map (fun b => (decB b).getD 0) = encSex bs := by
    rw [he]
    simp only [b64encode, List.map_map]
    conv_rhs => rw [← List.map_id (encSex bs)]
    apply List.map_congr_left
    intro s hs
    simp [Function.comp, (hdec s (hlt s hs)).1]
  simp only [b64decode, pyPad4]
  rw [hfilter, if_pos hclean_len, htw, hdr, if_pos hcond, hmapmap]
  exact decodeCore_encSex bs h

theorem b64_roundtrip_std (bs : List Nat) (h : ∀ b ∈ bs, b < 256) :
    b64decode decStd (pyPad4 (b64encode 43 47 bs)) = some bs :=
  b64_roundtrip 43 47 decStd decStd_sextetChar bs h

theorem b64_roundtrip_url (bs : List Nat) (h : ∀ b ∈ bs, b < 256) :
    b64decode decUrl (pyPad4 (b64encode 45 95 bs)) = some bs :=
  b64_roundtrip 45 95 decUrl decUrl_sextetChar bs h

/-- Every byte produced by `decodeCore` is below 256 when the sextets are below 64. -/
theorem decodeCore_lt (ss : List Nat) (h : ∀ s ∈ ss, s < 64) (out : List Nat)
    (hout : decodeCore ss = some out) : ∀ b ∈ out, b < 256 := by
  induction ss using decodeCore.induct generalizing out with
  | case1 => simp only [decodeCore, Option.some.injEq] at hout; subst hout; simp
  | case2 a => simp [decodeCore] at hout
  | case3 a b =>
    have ha : a < 64 := h a (by simp)
    have hb : b < 64 := h b (by simp)
    simp only [decodeCore, Option.some.injEq] at hout
    subst hout
    simp
    omega
  | case4 a b c =>
    have ha : a < 64 := h a (by simp)
    have hb : b < 64 := h b (by simp)
    have hc : c < 64 := h c (by simp)
    simp only [decodeCore, Option.some.injEq] at hout
    subst hout
    simp
    omega
  | case5 a b c d rest ih =>
    have ha : a < 64 := h a (by simp)
    have hb : b < 64 := h b (by simp)
    have hc : c < 64 := h c (by simp)
    have hd : d < 64 := h d (by simp)
    simp only [decodeCore] at hout
    cases hrest : decodeCore rest with
    | none => rw [hrest] at hout; exact Option.noConfusion hout
    | some r =>
      rw [hrest] at hout
      simp only [Option.map_some', Option.some.injEq] at hout
      subst hout
      intro x hx
      simp only [List.mem_cons] at hx
      rcases hx with rfl | rfl | rfl | hx
      · omega
      · omega
      · omega
      · exact ih (fun s hs => h s (by simp [hs])) r hrest x hx

/-- Every byte produced by `b64decode` is below 256. -/
theorem b64decode_lt (decB : Nat → Option Nat)
    (hdecB : ∀ b n, decB b = some n → n < 64) (l out : List Nat)
    (hout : b64decode decB l = some out) : ∀ b ∈ out, b < 256 := by
  simp only [b64decode] at hout
  split at hout
  · split at hout
    · refine decodeCore_lt _ ?_ out hout
      intro s hs
      simp only [List.mem_map] at hs
      obtain ⟨b, hb, rfl⟩ := hs
      rcases hd : decB b with _ | n
      · simp only [hd, Option.getD_none]
        omega
      · simpa [hd] using hdecB b n hd
    · exact Option.noConfusion hout
  · exact Option.noConfusion hout

theorem decStd_lt (b n : Nat) (h : decStd b = some n) : n < 64 := by
  simp only [decStd] at h
  repeat' split at h
  all_goals first
    | (injection h with h; omega)
    | exact Option.noConfusion h

theorem decUrl_lt (b n : Nat) (h : decUrl b = some n) : n < 64 := by
  simp only [decUrl] at h
  split at h
  · injection h with h
    omega
  · split at h
    · injection h with h
      omega
    · exact decStd_lt b n h

theorem takeWhile_ne_append (s : List Nat) (b : Nat) (rest : List Nat) (h : b ∉ s) :
    (s ++ b :: rest).takeWhile (· ≠ b) = s ∧ (s ++ b :: rest).drop s.length = b :: rest := by
  refine ⟨?_, by rw [List.drop_left]⟩
  induction s with
  | nil => simp [List.takeWhile_cons]
  | cons x s ih =>
    have hx : x ≠ b := fun hxb => h (by simp [hxb])
    simp only [List.cons_append, List.takeWhile_cons]
    rw [if_pos (by simpa using hx), ih (fun hb => h (by simp [hb]))]

theorem takeWhile_digits_append (ds rest : List Nat) (hds : ds.all isDigitB = true)
    (hrest : headNonDigit rest = true) :
    (ds ++ rest).takeWhile isDigitB = ds ∧ (ds ++ rest).drop ds.length = rest := by
  refine ⟨?_, by rw [List.drop_left]⟩
  induction ds with
  | nil =>
    cases rest with
    | nil => rfl
    | cons d r =>
      simp only [headNonDigit, Bool.not_eq_true'] at hrest
      simp [List.takeWhile_cons, hrest]
  | cons x ds ih =>
    simp only [List.all_cons, Bool.and_eq_true] at hds
    simp only [List.cons_append, List.takeWhile_cons, hds.1, if_pos]
    rw [ih hds.2]

theorem parseVal_render (v : JVal) (rest : List Nat) (hv : wfVal v)
    (hrest : headNonDigit rest = true) :
    parseVal (renderVal v ++ rest) = some (v, rest) := by
  cases v with
  | jstr s =>
    obtain ⟨h34, _⟩ := hv
    have hshape : renderVal (.jstr s) ++ rest = 34 :: (s ++ 34 :: rest) := by
      simp [renderVal]
    rw [hshape]
    obtain ⟨htw, hdr⟩ := takeWhile_ne_append s 34 rest h34
    simp only [parseVal]
    rw [htw, hdr]
  | jnum n =>
    cases n with
    | ofNat m =>
      obtain ⟨hval, hne, hdig⟩ := natDigits_correct m
      have hrv : renderVal (.jnum (Int.ofNat m)) = natDigits m := by
        simp [renderVal, intStr]
      rw [hrv]
      obtain ⟨d, ds, hd⟩ : ∃ d ds, natDigits m = d :: ds := by
        cases hd : natDigits m with
        | nil => exact absurd hd hne
        | cons d ds => exact ⟨d, ds, rfl⟩
      have hdd : 48 ≤ d ∧ d ≤ 57 := by
        have := hdig
        rw [hd] at this
        simp only [List.all_cons, Bool.and_eq_true, isDigitB, decide_eq_true_eq] at this
        exact this.1
      obtain ⟨htw, hdr⟩ := takeWhile_digits_append (natDigits m) rest hdig hrest
      rw [parseVal.eq_def]
      split
      · next heq =>
        rw [hd, List.cons_append, List.cons.injEq] at heq
        omega
      · next heq =>
        rw [hd, List.cons_append, List.cons.injEq] at heq
        omega
      · rw [htw, if_neg hne, hdr, hval]
        rfl
    | negSucc m =>
      obtain ⟨hval, hne, hdig⟩ := natDigits_correct (m + 1)
      have hrv : renderVal (.jnum (Int.negSucc m)) ++ rest =
          45 :: (natDigits (m + 1) ++ rest) := by
        have hlt : Int.negSucc m < 0 := Int.negSucc_lt_zero m
        simp [renderVal, intStr, hlt]
      rw [hrv]
      obtain ⟨htw, hdr⟩ := takeWhile_digits_append (natDigits (m + 1)) rest hdig hrest
      simp only [parseVal]
      rw [htw, if_neg hne, hdr, hval]
      simp [Int.negSucc_eq]

theorem parseEntry_render (kv : List Nat × JVal) (rest : List Nat)
    (hk : wfStr kv.1) (hv : wfVal kv.2) (hrest : headNonDigit rest = true) :
    parseEntry (renderEntry kv ++ rest) = some (kv, rest) := by
  obtain ⟨k, v⟩ := kv
  have hshape : renderEntry (k, v) ++ rest =
      34 :: (k ++ 34 :: (58 :: 32 :: (renderVal v ++ rest))) := by
    simp [renderEntry]
  rw [hshape]
  obtain ⟨htw, hdr⟩ := takeWhile_ne_append k 34 (58 :: 32 :: (renderVal v ++ rest)) hk.1
  simp only [parseEntry]
  rw [htw, hdr]
  simp only [parseVal_render v rest hv hrest, Option.map_some']

theorem renderEntries_head (m : List (List Nat × JVal)) (hm : m ≠ []) :
    ∃ t, renderEntries m = 34 :: t := by
  match m with
  | [kv] => exact ⟨_, rfl⟩
  | kv :: kv2 :: r => exact ⟨_, rfl⟩

theorem length_le_renderEntries (m : List (List Nat × JVal)) :
    m.length ≤ (renderEntries m).length := by
  induction m using renderEntries.induct with
  | case1 => simp [renderEntries]
  | case2 kv => simp [renderEntries, renderEntry]
  | case3 kv rest hne ih =>
    obtain ⟨kv2, r, rfl⟩ : ∃ y ys, rest = y :: ys := by
      cases rest with
      | nil => exact absurd rfl hne
      | cons y ys => exact ⟨y, ys, rfl⟩
    have h1 : (renderEntries (kv :: kv2 :: r)).length =
        (renderEntry kv).length + 2 + (renderEntries (kv2 :: r)).length := by
      simp [renderEntries]
      omega
    have h2 : 1 ≤ (renderEntry kv).length := by simp [renderEntry]
    simp only [List.length_cons] at ih ⊢
    omega

theorem parseEntries_render (m : List (List Nat × JVal)) :
    ∀ (fuel : Nat) (rest : List Nat),
      (∀ kv ∈ m, wfStr kv.1 ∧ wfVal kv.2) → m ≠ [] → m.length ≤ fuel →
      parseEntries fuel (renderEntries m ++ 125 :: rest) = some (m, rest) := by
  induction m using renderEntries.induct with
  | case1 =>
    intro fuel rest _ hm _
    exact absurd rfl hm
  | case2 kv =>
    intro fuel rest hwf _ hfuel
    obtain ⟨fuel, rfl⟩ : ∃ f, fuel = f + 1 := ⟨fuel - 1, by simp at hfuel; omega⟩
    obtain ⟨hk, hv⟩ := hwf kv (by simp)
    simp only [renderEntries, parseEntries]
    rw [parseEntry_render kv (125 :: rest) hk hv (by rfl)]
  | case3 kv tl hne ih =>
    intro fuel rest hwf _ hfuel
    obtain ⟨kv2, r, rfl⟩ : ∃ y ys, tl = y :: ys := by
      cases tl with
      | nil => exact absurd rfl hne
      | cons y ys => exact ⟨y, ys, rfl⟩
    obtain ⟨fuel, rfl⟩ : ∃ f, fuel = f + 1 := ⟨fuel - 1, by simp at hfuel; omega⟩
    obtain ⟨hk, hv⟩ := hwf kv (by simp)
    have hshape : renderEntries (kv :: kv2 :: r) ++ 125 :: rest =
        renderEntry kv ++ 44 :: 32 :: (renderEntries (kv2 :: r) ++ 125 :: rest) := by
      simp [renderEntries]
    rw [hshape]
    simp only [parseEntries]
    rw [parseEntry_render kv _ hk hv (by rfl)]
    have hr := ih fuel rest (fun x hx => hwf x (by simp only [List.mem_cons] at hx ⊢; tauto))
      (by simp) (by simp at hfuel ⊢; omega)
    show Option.map (fun mr => (kv :: mr.1, mr.2))
        (parseEntries fuel (renderEntries (kv2 :: r) ++ 125 :: rest)) =
      some (kv :: kv2 :: r, rest)
    rw [hr]
    rfl

/-- Syntactic round-trip: parsing back a rendered object recovers the raw
entry list (duplicate keys and all). -/
theorem rawJsonParse_render (m : List (List Nat × JVal))
    (hwf : ∀ kv ∈ m, wfStr kv.1 ∧ wfVal kv.2) :
    rawJsonParse (jsonRender m) = some m := by
  cases hm : m with
  | nil => rfl
  | cons kv r =>
    obtain ⟨t, ht⟩ := renderEntries_head m (by rw [hm]; simp)
    rw [← hm]
    have hshape : jsonRender m = 123 :: 34 :: (t ++ [125]) := by
      simp [jsonRender, ht]
    rw [hshape]
    have hlen : m.length ≤ (34 :: (t ++ [125])).length := by
      have h1 := length_le_renderEntries m
      rw [ht] at h1
      simp only [List.length_cons, List.length_append, List.length_cons,
        List.length_nil] at h1 ⊢
      omega
    have hpe : parseEntries (34 :: (t ++ [125])).length (34 :: (t ++ [125])) =
        some (m, []) := by
      have := parseEntries_render m (34 :: (t ++ [125])).length [] hwf (by rw [hm]; simp) hlen
      rw [ht] at this
      simpa using this
    simp only [rawJsonParse]
    rw [hpe]

theorem mem_dictSet (m : List (List Nat × JVal)) (k : List Nat) (v : JVal)
    (kv' : List Nat × JVal) (h : kv' ∈ dictSet m k v) : kv' ∈ m ∨ kv' = (k, v) := by
  simp only [dictSet] at h
  split at h
  · simp only [List.mem_map] at h
    obtain ⟨kv0, hkv0, heq⟩ := h
    by_cases hk : kv0.1 = k
    · rw [if_pos hk] at heq
      right
      exact heq.symm
    · rw [if_neg hk] at heq
      left
      rw [← heq]
      exact hkv0
  · rcases List.mem_append.mp h with h | h
    · left
      exact h
    · right
      simpa using h

/-- Every entry of the dict built from a raw entry list is one of the raw entries. -/
theorem mem_pyDictOf (l : List (List Nat × JVal)) (kv' : List Nat × JVal)
    (h : kv' ∈ pyDictOf l) : kv' ∈ l := by
  suffices hgen : ∀ acc, kv' ∈ l.foldl (fun m kv => dictSet m kv.1 kv.2) acc →
      kv' ∈ acc ∨ kv' ∈ l by
    rcases hgen [] h with h | h
    · exact absurd h (List.not_mem_nil kv')
    · exact h
  clear h
  induction l with
  | nil => intro acc h; exact Or.inl h
  | cons kv l ih =>
    intro acc h
    simp only [List.foldl_cons] at h
    rcases ih _ h with h | h
    · rcases mem_dictSet acc kv.1 kv.2 kv' h with h | h
      · exact Or.inl h
      · right
        simp [h]
    · right
      simp [h]

theorem keys_dictSet (m : List (List Nat × JVal)) (k : List Nat) (v : JVal) :
    (dictSet m k v).map Prod.fst = m.map Prod.fst ∨
      (dictSet m k v).map Prod.fst = m.map Prod.fst ++ [k] := by
  simp only [dictSet]
  split
  · left
    rw [List.map_map]
    apply List.map_congr_left
    intro kv hkv
    by_cases hk : kv.1 = k <;> simp [hk]
  · right
    simp

theorem nodup_keys_dictSet (m : List (List Nat × JVal)) (k : List Nat) (v : JVal)
    (h : (m.map Prod.fst).Nodup) : ((dictSet m k v).map Prod.fst).Nodup := by
  rcases keys_dictSet m k v with hk | hk
  · rw [hk]; exact h
  · -- the append branch only happens when `k` is absent
    simp only [dictSet] at hk ⊢
    split at hk
    · split
      · rw [List.map_map]
        have : (m.map (fun kv => if kv.1 = k then (k, v) else kv)).map Prod.fst =
            m.map Prod.fst := by
          rw [List.map_map]
          apply List.map_congr_left
          intro kv hkv
          by_cases hc : kv.1 = k <;> simp [hc]
        rw [List.map_map] at this
        rw [this]
        exact h
      · next hany => exact absurd (by assumption) hany
    · split
      · next hany => exact absurd hany (by assumption)
      · next hany =>
        rw [List.map_append]
        simp only [List.map_cons, List.map_nil]
        rw [List.nodup_append]
        refine ⟨h, List.nodup_singleton k, ?_⟩
        intro a ha
        simp only [List.mem_singleton]
        intro hak
        subst hak
        simp only [List.mem_map] at ha
        obtain ⟨kv0, hkv0, hfst⟩ := ha
        simp only [List.any_eq_true] at hany
        exact hany ⟨kv0, hkv0, by simp [hfst]⟩

theorem nodup_keys_pyDictOf (l : List (List Nat × JVal)) :
    ((pyDictOf l).map Prod.fst).Nodup := by
  suffices hgen : ∀ acc, (acc.map Prod.fst).Nodup →
      ((l.foldl (fun m kv => dictSet m kv.1 kv.2) acc).map Prod.fst).Nodup from
    hgen [] (by simp)
  induction l with
  | nil => intro acc h; exact h
  | cons kv l ih =>
    intro acc h
    simp only [List.foldl_cons]
    exact ih _ (nodup_keys_dictSet acc kv.1 kv.2 h)

theorem dictSet_absent (m : List (List Nat × JVal)) (k : List Nat) (v : JVal)
    (h : ∀ kv ∈ m, kv.1 ≠ k) : dictSet m k v = m ++ [(k, v)] := by
  simp only [dictSet]
  rw [if_neg]
  simp only [List.any_eq_true, not_exists, not_and]
  intro kv hkv
  simp [h kv hkv]

/-- Loading back what a dict rendered gives the same dict (distinct keys). -/
theorem pyDictOf_eq_self (m : List (List Nat × JVal)) (h : (m.map Prod.fst).Nodup) :
    pyDictOf m = m := by
  suffices hgen : ∀ (l acc : List (List Nat × JVal)),
      ((acc ++ l).map Prod.fst).Nodup →
      l.foldl (fun m kv => dictSet m kv.1 kv.2) acc = acc ++ l by
    simpa using hgen m [] (by simpa using h)
  intro l
  induction l with
  | nil => intro acc _; simp
  | cons kv l ih =>
    intro acc hnd
    simp only [List.foldl_cons]
    have hset : dictSet acc kv.1 kv.2 = acc ++ [kv] := by
      have habs : ∀ kv0 ∈ acc, kv0.1 ≠ kv.1 := by
        intro kv0 hkv0 heq
        rw [List.map_append, List.nodup_append] at hnd
        exact hnd.2.2 (List.mem_map_of_mem Prod.fst hkv0) (by rw [heq]; simp)
      rw [dictSet_absent acc kv.1 kv.2 habs]
    rw [hset]
    have := ih (acc ++ [kv]) (by simpa using hnd)
    rw [this]
    simp

theorem jsonLoads_render (m : List (List Nat × JVal)) (h : wfPayload m) :
    jsonLoads (jsonRender m) = some m := by
  obtain ⟨hwf, hnd⟩ := h
  simp only [jsonLoads, rawJsonParse_render m hwf, Option.map_some']
  rw [pyDictOf_eq_self m hnd]

theorem parseVal_wf (l : List Nat) (v : JVal) (r : List Nat)
    (hl : ∀ b ∈ l, b < 256) (h : parseVal l = some (v, r)) :
    wfVal v ∧ ∀ b ∈ r, b < 256 := by
  rw [parseVal.eq_def] at h
  split at h
  · next rest =>
    dsimp only [] at h
    split at h
    · next r3 heq =>
      simp only [Option.some.injEq, Prod.mk.injEq] at h
      obtain ⟨rfl, rfl⟩ := h
      have hsub : rest.takeWhile (· ≠ 34) ⊆ rest := (List.takeWhile_prefix _).subset
      have hrest : ∀ b ∈ rest, b < 256 := fun b hb => hl b (by simp [hb])
      refine ⟨⟨?_, fun b hb => hrest b (hsub hb)⟩, ?_⟩
      · intro h34
        have := List.mem_takeWhile_imp h34
        simp at this
      · intro b hb
        have hb2 : b ∈ rest.drop (rest.takeWhile (· ≠ 34)).length := by
          rw [heq]
          simp [hb]
        exact hrest b (List.drop_subset _ rest hb2)
    · exact Option.noConfusion h
  · next rest =>
    dsimp only [] at h
    split at h
    · exact Option.noConfusion h
    · simp only [Option.some.injEq, Prod.mk.injEq] at h
      obtain ⟨rfl, rfl⟩ := h
      refine ⟨trivial, fun b hb => ?_⟩
      have hrest : ∀ b ∈ rest, b < 256 := fun b hb => hl b (by simp [hb])
      exact hrest b (List.drop_subset _ rest hb)
  · dsimp only [] at h
    split at h
    · exact Option.noConfusion h
    · simp only [Option.some.injEq, Prod.mk.injEq] at h
      obtain ⟨rfl, rfl⟩ := h
      exact ⟨trivial, fun b hb => hl b (List.drop_subset _ l hb)⟩

theorem parseEntry_wf (l : List Nat) (kv : List Nat × JVal) (r : List Nat)
    (hl : ∀ b ∈ l, b < 256) (h : parseEntry l = some (kv, r)) :
    (wfStr kv.1 ∧ wfVal kv.2) ∧ ∀ b ∈ r, b < 256 := by
  rw [parseEntry.eq_def] at h
  split at h
  · next rest =>
    dsimp only [] at h
    split at h
    · next r3 heq =>
      have hrest : ∀ b ∈ rest, b < 256 := fun b hb => hl b (by simp [hb])
      have hr3 : ∀ b ∈ r3, b < 256 := by
        intro b hb
        have hb2 : b ∈ rest.drop (rest.takeWhile (· ≠ 34)).length := by
          rw [heq]
          simp [hb]
        exact hrest b (List.drop_subset _ rest hb2)
      cases hpv : parseVal r3 with
      | none => rw [hpv] at h; exact Option.noConfusion h
      | some vr =>
        obtain ⟨v1, r1⟩ := vr
        rw [hpv] at h
        simp only [Option.map_some', Option.some.injEq, Prod.mk.injEq] at h
        obtain ⟨rfl, rfl⟩ := h
        obtain ⟨hv, hr⟩ := parseVal_wf r3 v1 r1 hr3 hpv
        have hsub : rest.takeWhile (· ≠ 34) ⊆ rest := (List.takeWhile_prefix _).subset
        refine ⟨⟨⟨?_, fun b hb => hrest b (hsub hb)⟩, hv⟩, hr⟩
        intro h34
        have := List.mem_takeWhile_imp h34
        simp at this
    · exact Option.noConfusion h
  · exact Option.noConfusion h

theorem parseEntries_wf : ∀ (fuel : Nat) (l : List Nat) (m : List (List Nat × JVal))
    (r : List Nat), (∀ b ∈ l, b < 256) → parseEntries fuel l = some (m, r) →
    (∀ kv ∈ m, wfStr kv.1 ∧ wfVal kv.2) ∧ ∀ b ∈ r, b < 256 := by
  intro fuel
  induction fuel with
  | zero => intro l m r _ h; exact Option.noConfusion h
  | succ fuel ih =>
    intro l m r hl h
    rw [parseEntries.eq_def] at h
    dsimp only [] at h
    cases hpe : parseEntry l with
    | none => rw [hpe] at h; exact Option.noConfusion h
    | some kvr =>
      obtain ⟨kv1, r1⟩ := kvr
      rw [hpe] at h
      dsimp only [] at h
      obtain ⟨hkv, hr1⟩ := parseEntry_wf l kv1 r1 hl hpe
      split at h
      · next r2 =>
        simp only [Option.some.injEq, Prod.mk.injEq] at h
        obtain ⟨rfl, rfl⟩ := h
        refine ⟨fun x hx => ?_, fun b hb => ?_⟩
        · simp only [List.mem_singleton] at hx
          subst hx
          exact hkv
        · exact hr1 b (by simp [hb])
      · next r2 =>
        have hr2 : ∀ b ∈ r2, b < 256 := fun b hb => hr1 b (by simp [hb])
        cases hrec : parseEntries fuel r2 with
        | none => rw [hrec] at h; exact Option.noConfusion h
        | some mr =>
          obtain ⟨m2, r3⟩ := mr
          rw [hrec] at h
          simp only [Option.map_some', Option.some.injEq, Prod.mk.injEq] at h
          obtain ⟨rfl, rfl⟩ := h
          obtain ⟨hm, hr⟩ := ih r2 m2 r3 hr2 hrec
          refine ⟨fun x hx => ?_, hr⟩
          simp only [List.mem_cons] at hx
          rcases hx with rfl | hx
          · exact hkv
          · exact hm x hx
      · exact Option.noConfusion h

theorem rawJsonParse_wf (l : List Nat) (m : List (List Nat × JVal))
    (hl : ∀ b ∈ l, b < 256) (h : rawJsonParse l = some m) :
    ∀ kv ∈ m, wfStr kv.1 ∧ wfVal kv.2 := by
  rw [rawJsonParse.eq_def] at h
  split at h
  · split at h
    · simp only [Option.some.injEq] at h
      subst h
      intro kv hkv
      exact absurd hkv (List.not_mem_nil kv)
    · exact Option.noConfusion h
  · rename_i rest hno
    split at h
    · next m' heq =>
      simp only [Option.some.injEq] at h
      subst h
      have hrest : ∀ b ∈ rest, b < 256 := fun b hb => hl b (by simp [hb])
      exact (parseEntries_wf rest.length rest m' [] hrest heq).1
    · exact Option.noConfusion h
  · exact Option.noConfusion h

theorem jsonLoads_wf (l : List Nat) (m : List (List Nat × JVal))
    (hl : ∀ b ∈ l, b < 256) (h : jsonLoads l = some m) : wfPayload m := by
  simp only [jsonLoads] at h
  cases hraw : rawJsonParse l with
  | none => rw [hraw] at h; exact Option.noConfusion h
  | some m' =>
    rw [hraw] at h
    simp only [Option.map_some', Option.some.injEq] at h
    subst h
    refine ⟨fun kv hkv => ?_, nodup_keys_pyDictOf m'⟩
    exact rawJsonParse_wf l m' hl hraw kv (mem_pyDictOf m' kv hkv)

theorem renderVal_lt (v : JVal) (hv : wfVal v) : ∀ b ∈ renderVal v, b < 256 := by
  cases v with
  | jstr s =>
    intro b hb
    have hmem : b = 34 ∨ b ∈ s := by
      simp only [renderVal] at hb
      simp at hb
      tauto
    rcases hmem with rfl | hb2
    · omega
    · exact hv.2 b hb2
  | jnum n =>
    intro b hb
    obtain ⟨_, _, hdig⟩ := natDigits_correct n.natAbs
    simp only [List.all_eq_true, isDigitB, decide_eq_true_eq] at hdig
    simp only [renderVal, intStr] at hb
    split at hb
    · simp only [List.mem_cons] at hb
      rcases hb with rfl | hb
      · omega
      · have := hdig b hb
        omega
    · have := hdig b hb
      omega

theorem jsonRender_lt (m : List (List Nat × JVal))
    (h : ∀ kv ∈ m, wfStr kv.1 ∧ wfVal kv.2) : ∀ b ∈ jsonRender m, b < 256 := by
  have hentries : ∀ b ∈ renderEntries m, b < 256 := by
    induction m using renderEntries.induct with
    | case1 => simp [renderEntries]
    | case2 kv =>
      obtain ⟨hk, hv⟩ := h kv (by simp)
      intro b hb
      have hmem : b = 34 ∨ b ∈ kv.1 ∨ b = 58 ∨ b = 32 ∨ b ∈ renderVal kv.2 := by
        simp only [renderEntries, renderEntry] at hb
        simp at hb
        tauto
      rcases hmem with rfl | hb2 | rfl | rfl | hb2
      · omega
      · exact hk.2 b hb2
      · omega
      · omega
      · exact renderVal_lt kv.2 hv b hb2
    | case3 kv rest hne ih =>
      obtain ⟨kv2, rr, rfl⟩ : ∃ y ys, rest = y :: ys := by
        cases rest with
        | nil => exact absurd rfl hne
        | cons y ys => exact ⟨y, ys, rfl⟩
      have hih := ih (fun x hx => h x (by simp only [List.mem_cons] at hx ⊢; tauto))
      obtain ⟨hk, hv⟩ := h kv (by simp)
      intro b hb
      have hmem : b = 34 ∨ b ∈ kv.1 ∨ b = 58 ∨ b = 32 ∨ b ∈ renderVal kv.2 ∨ b = 44 ∨
          b ∈ renderEntries (kv2 :: rr) := by
        simp only [renderEntries, renderEntry] at hb
        simp at hb
        tauto
      rcases hmem with rfl | hb2 | rfl | rfl | hb2 | rfl | hb2
      · omega
      · exact hk.2 b hb2
      · omega
      · omega
      · exact renderVal_lt kv.2 hv b hb2
      · omega
      · exact hih b hb2
  intro b hb
  have hmem : b = 123 ∨ b = 125 ∨ b ∈ renderEntries m := by
    simp only [jsonRender] at hb
    simp at hb
    tauto
  rcases hmem with rfl | rfl | hb2
  · omega
  · omega
  · exact hentries b hb2

/-- The canonical set enumeration is a permutation-invariant: two runs whose
surviving multisets agree produce the same list. -/
theorem pySetList_perm_eq (cs1 cs2 : List (List Nat)) (hp : cs1.Perm cs2) :
    pySetList cs1 = pySetList cs2 := by
  have hd : cs1.dedup.Perm cs2.dedup := hp.dedup
  have hperm : (List.insertionSort rLex cs1.dedup).Perm (List.insertionSort rLex cs2.dedup) :=
    ((List.perm_insertionSort rLex cs1.dedup).trans hd).trans
      (List.perm_insertionSort rLex cs2.dedup).symm
  exact List.eq_of_perm_of_sorted hperm
    (List.sorted_insertionSort rLex cs1.dedup) (List.sorted_insertionSort rLex cs2.dedup)

theorem pySortedSet_perm_eq (cs1 cs2 : List (List Nat)) (hp : cs1.Perm cs2) :
    pySortedSet cs1 = pySortedSet cs2 := by
  unfold pySortedSet
  rw [pySetList_perm_eq cs1 cs2 hp]

theorem pySortedSet_perm_dedup (cs : List (List Nat)) : (pySortedSet cs).Perm cs.dedup :=
  (List.perm_insertionSort rLower (pySetList cs)).trans (List.perm_insertionSort rLex cs.dedup)

theorem pySortedSet_sorted (cs : List (List Nat)) : (pySortedSet cs).Sorted rLower :=
  List.sorted_insertionSort rLower (pySetList cs)

theorem pySortedSet_nodup (cs : List (List Nat)) : (pySortedSet cs).Nodup :=
  (pySortedSet_perm_dedup cs).nodup_iff.mpr cs.nodup_dedup

theorem mem_pySortedSet (cs : List (List Nat)) (c : List Nat) :
    c ∈ pySortedSet cs ↔ c ∈ cs := by
  rw [(pySortedSet_perm_dedup cs).mem_iff, List.mem_dedup]

/-! ## Lookup after a dict assignment -/

theorem dictGet_replace (m : List (List Nat × JVal)) (k : List Nat) (v : JVal)
    (hany : m.any (fun kv => kv.1 = k) = true) :
    dictGet (m.map (fun kv => if kv.1 = k then (k, v) else kv)) k = some v := by
  induction m with
  | nil => simp at hany
  | cons kv m ih =>
    simp only [List.any_cons, Bool.or_eq_true, decide_eq_true_eq] at hany
    simp only [List.map_cons]
    by_cases hk : kv.1 = k
    · rw [if_pos hk]
      simp [dictGet, List.find?]
    · rw [if_neg hk]
      simp only [dictGet, List.find?]
      rw [show (decide (kv.1 = k)) = false by simp [hk]]
      exact ih (hany.resolve_left hk)

theorem dictGet_replace_other (m : List (List Nat × JVal)) (k : List Nat) (v : JVal)
    (k' : List Nat) (hk : k' ≠ k) :
    dictGet (m.map (fun kv => if kv.1 = k then (k, v) else kv)) k' = dictGet m k' := by
  induction m with
  | nil => rfl
  | cons kv m ih =>
    simp only [List.map_cons]
    by_cases hkk : kv.1 = k
    · rw [if_pos hkk]
      simp only [dictGet, List.find?]
      rw [show (decide (k = k')) = false from decide_eq_false (fun h => hk h.symm)]
      rw [show (decide (kv.1 = k')) = false from decide_eq_false (fun h => hk (h ▸ hkk))]
      exact ih
    · rw [if_neg hkk]
      simp only [dictGet, List.find?]
      cases hd : decide (kv.1 = k') with
      | true => rfl
      | false => exact ih

theorem dictGet_append_last (m : List (List Nat × JVal)) (k : List Nat) (v : JVal)
    (h : ∀ kv ∈ m, kv.1 ≠ k) : dictGet (m ++ [(k, v)]) k = some v := by
  induction m with
  | nil => simp [dictGet, List.find?]
  | cons kv m ih =>
    simp only [List.cons_append, dictGet, List.find?]
    rw [show (decide (kv.1 = k)) = false by simp [h kv (by simp)]]
    exact ih (fun x hx => h x (by simp [hx]))

theorem dictGet_append_other (m : List (List Nat × JVal)) (k : List Nat) (v : JVal)
    (k' : List Nat) (hk : k' ≠ k) : dictGet (m ++ [(k, v)]) k' = dictGet m k' := by
  induction m with
  | nil =>
    simp only [List.nil_append, dictGet, List.find?]
    rw [show (decide (k = k')) = false from decide_eq_false (fun h => hk h.symm)]
  | cons kv m ih =>
    simp only [List.cons_append, dictGet, List.find?]
    cases hd : decide (kv.1 = k') with
    | true => rfl
    | false => exact ih

theorem dictGet_dictSet_same (m : List (List Nat × JVal)) (k : List Nat) (v : JVal) :
    dictGet (dictSet m k v) k = some v := by
  simp only [dictSet]
  split
  · next hany => exact dictGet_replace m k v hany
  · next hany =>
    refine dictGet_append_last m k v ?_
    intro kv hkv heq
    exact hany (by simp only [List.any_eq_true]; exact ⟨kv, hkv, by simp [heq]⟩)

theorem dictGet_dictSet_other (m : List (List Nat × JVal)) (k : List Nat) (v : JVal)
    (k' : List Nat) (hk : k' ≠ k) : dictGet (dictSet m k v) k' = dictGet m k' := by
  simp only [dictSet]
  split
  · exact dictGet_replace_other m k v k' hk
  · exact dictGet_append_other m k v k' hk

/-- A dict assignment preserves payload well-formedness when the new entry is
itself well-formed. -/
theorem wfPayload_dictSet (m : List (List Nat × JVal)) (k : List Nat) (v : JVal)
    (hm : wfPayload m) (hk : wfStr k) (hv : wfVal v) :
    wfPayload (dictSet m k v) := by
  obtain ⟨hkv, hnd⟩ := hm
  refine ⟨fun kv hkv2 => ?_, nodup_keys_dictSet m k v hnd⟩
  rcases mem_dictSet m k v kv hkv2 with h | h
  · exact hkv kv h
  · rw [h]
    exact ⟨hk, hv⟩

/-! ## vmess payload round-trip -/

/-- Every payload `_decode_vmess_payload` accepts is well-formed: its strings
carry no quote byte, only byte values, and its keys are distinct. -/
theorem decodeVmess_wf (s : List Nat) (m : List (List Nat × JVal))
    (h : decodeVmessPayload s = some m) : wfPayload m := by
  simp only [decodeVmessPayload] at h
  cases hb : b64decode decUrl (pyPad4 s) with
  | none => rw [hb] at h; exact Option.noConfusion h
  | some bs =>
    rw [hb] at h
    exact jsonLoads_wf bs m (b64decode_lt decUrl decUrl_lt (pyPad4 s) bs hb) h

/-- Re-encoding then decoding a well-formed payload is the identity. -/
theorem decodeVmess_encode (m : List (List Nat × JVal)) (h : wfPayload m) :
    decodeVmessPayload (encodeVmessPayload m) = some m := by
  simp only [decodeVmessPayload, encodeVmessPayload]
  rw [b64_roundtrip_url (jsonRender m) (jsonRender_lt m h.1)]
  exact jsonLoads_render m h

theorem wfStr_psKey : wfStr psKey := by
  constructor
  · decide
  · decide

theorem wfStr_REMARK : wfStr REMARK := by
  constructor
  · decide
  · decide

/-- C2: for every JSON-in-base64 (vmess) descriptor that decodes successfully
(to a nonempty payload), `_remark_vmess` re-encodes the payload with the `ps`
display-label field set to the configured remark; decoding the re-encoded
payload yields every field of the original payload unchanged, except `ps`
which is exactly the remark. -/
theorem C2_vmess_roundtrip (s : List Nat) (m : List (List Nat × JVal))
    (hdec : decodeVmessPayload s = some m) (hne : m ≠ []) :
    remarkVmess (vmessScheme ++ s) =
      some (vmessScheme ++ encodeVmessPayload (dictSet m psKey (.jstr REMARK))) ∧
    decodeVmessPayload (encodeVmessPayload (dictSet m psKey (.jstr REMARK))) =
      some (dictSet m psKey (.jstr REMARK)) ∧
    (∀ k, k ≠ psKey → dictGet (dictSet m psKey (.jstr REMARK)) k = dictGet m k) ∧
    dictGet (dictSet m psKey (.jstr REMARK)) psKey = some (.jstr REMARK) := by
  have hdrop : (vmessScheme ++ s).drop vmessScheme.length = s := List.drop_left _ _
  have hwf : wfPayload (dictSet m psKey (.jstr REMARK)) :=
    wfPayload_dictSet m psKey (.jstr REMARK) (decodeVmess_wf s m hdec) wfStr_psKey
      wfStr_REMARK
  refine ⟨?_, decodeVmess_encode _ hwf, ?_, ?_⟩
  · simp only [remarkVmess, hdrop, hdec]
    rw [if_neg hne]
  · intro k hk
    exact dictGet_dictSet_other m psKey (.jstr REMARK) k hk
  · exact dictGet_dictSet_same m psKey (.jstr REMARK)

theorem wfPayload_c2Payload : wfPayload c2Payload := by
  refine ⟨?_, by decide⟩
  intro kv hkv
  fin_cases hkv
  · exact ⟨⟨by decide, by decide⟩, ⟨by decide, by decide⟩⟩
  · exact ⟨⟨by decide, by decide⟩, trivial⟩
  · exact ⟨⟨by decide, by decide⟩, ⟨by decide, by decide⟩⟩

theorem goProcess_append (L M : List (List Nat)) : ∀ seen,
    goProcess seen (L ++ M) = goProcess seen L ++ goProcess (keysAfter seen L) M := by
  induction L with
  | nil => intro seen; rfl
  | cons l rest ih =>
    intro seen
    simp only [List.cons_append, goProcess, keysAfter]
    cases hp : parseLine (pyStrip l) with
    | none => exact ih seen
    | some c =>
      dsimp only []
      by_cases hk : keyOf c ∈ seen
      · rw [if_pos hk, if_pos hk, if_pos hk]
        exact ih seen
      · rw [if_neg hk, if_neg hk, if_neg hk]
        simp only [List.append_eq]
        rw [ih (keyOf c :: seen)]
        rfl

theorem mem_keysAfter_of_seen (L : List (List Nat)) : ∀ seen k, k ∈ seen →
    k ∈ keysAfter seen L := by
  induction L with
  | nil => intro seen k h; exact h
  | cons l rest ih =>
    intro seen k h
    simp only [keysAfter]
    cases hp : parseLine (pyStrip l) with
    | none => exact ih seen k h
    | some c =>
      dsimp only []
      by_cases hk : keyOf c ∈ seen
      · rw [if_pos hk]
        exact ih seen k h
      · rw [if_neg hk]
        exact ih _ k (by simp [h])

theorem key_mem_keysAfter (L : List (List Nat)) : ∀ seen (l : List Nat) (c : CConfig),
    l ∈ L → parseLine (pyStrip l) = some c → keyOf c ∈ keysAfter seen L := by
  induction L with
  | nil => intro seen l c h; exact absurd h (List.not_mem_nil l)
  | cons l0 rest ih =>
    intro seen l c hmem hp
    simp only [keysAfter]
    rcases List.mem_cons.mp hmem with rfl | hmem
    · rw [hp]
      dsimp only []
      by_cases hk : keyOf c ∈ seen
      · rw [if_pos hk]
        exact mem_keysAfter_of_seen rest seen (keyOf c) hk
      · rw [if_neg hk]
        exact mem_keysAfter_of_seen rest _ (keyOf c) (by simp)
    · cases hp0 : parseLine (pyStrip l0) with
      | none => exact ih seen l c hmem hp
      | some c0 =>
        dsimp only []
        by_cases hk : keyOf c0 ∈ seen
        · rw [if_pos hk]
          exact ih seen l c hmem hp
        · rw [if_neg hk]
          exact ih _ l c hmem hp

theorem mem_keysAfter_src (L : List (List Nat)) : ∀ seen k, k ∈ keysAfter seen L →
    k ∈ seen ∨ ∃ l ∈ L, ∃ c, parseLine (pyStrip l) = some c ∧ keyOf c = k := by
  induction L with
  | nil => intro seen k h; exact Or.inl h
  | cons l rest ih =>
    intro seen k h
    simp only [keysAfter] at h
    cases hp : parseLine (pyStrip l) with
    | none =>
      rw [hp] at h
      rcases ih seen k h with h | ⟨l2, hl2, c, hc, hk⟩
      · exact Or.inl h
      · exact Or.inr ⟨l2, by simp [hl2], c, hc, hk⟩
    | some c =>
      rw [hp] at h
      dsimp only [] at h
      by_cases hk : keyOf c ∈ seen
      · rw [if_pos hk] at h
        rcases ih seen k h with h | ⟨l2, hl2, c2, hc2, hk2⟩
        · exact Or.inl h
        · exact Or.inr ⟨l2, by simp [hl2], c2, hc2, hk2⟩
      · rw [if_neg hk] at h
        rcases ih _ k h with h | ⟨l2, hl2, c2, hc2, hk2⟩
        · rcases List.mem_cons.mp h with rfl | h
          · exact Or.inr ⟨l, by simp, c, hp, rfl⟩
          · exact Or.inl h
        · exact Or.inr ⟨l2, by simp [hl2], c2, hc2, hk2⟩

/-- Splitting at a separator byte absent from both left parts is unique. -/
theorem sepSplitUnique : ∀ (a b c d : List Nat), 58 ∉ a → 58 ∉ c →
    a ++ 58 :: b = c ++ 58 :: d → a = c ∧ b = d := by
  intro a
  induction a with
  | nil =>
    intro b c d _ hc h
    cases c with
    | nil =>
      simp only [List.nil_append, List.cons.injEq] at h
      exact ⟨rfl, h.2⟩
    | cons x cs =>
      simp only [List.nil_append, List.cons_append, List.cons.injEq] at h
      refine absurd ?_ hc
      rw [← h.1]
      exact List.mem_cons_self 58 cs
  | cons y as ih =>
    intro b c d ha hc h
    cases c with
    | nil =>
      simp only [List.cons_append, List.nil_append, List.cons.injEq] at h
      refine absurd ?_ ha
      rw [h.1]
      exact List.mem_cons_self 58 as
    | cons x cs =>
      simp only [List.cons_append, List.cons.injEq] at h
      obtain ⟨rfl, h2⟩ := h
      obtain ⟨h3, h4⟩ := ih b cs d (fun hm => ha (by simp [hm]))
        (fun hm => hc (by simp [hm])) h2
      exact ⟨by rw [h3], h4⟩

/-- Splitting at the separator before a separator-free tail is unique. -/
theorem sepSplitUniqueLast (h1 d1 h2 d2 : List Nat) (hd1 : 58 ∉ d1) (hd2 : 58 ∉ d2)
    (h : h1 ++ 58 :: d1 = h2 ++ 58 :: d2) : h1 = h2 ∧ d1 = d2 := by
  have hrev : d1.reverse ++ 58 :: h1.reverse = d2.reverse ++ 58 :: h2.reverse := by
    have := congrArg List.reverse h
    simpa [List.reverse_append] using this
  obtain ⟨ha, hb⟩ := sepSplitUnique d1.reverse h1.reverse d2.reverse h2.reverse
    (by simpa using hd1) (by simpa using hd2) hrev
  constructor
  · have := congrArg List.reverse hb
    simpa using this
  · have := congrArg List.reverse ha
    simpa using this

theorem intStr_digits (n : Int) : 58 ∉ intStr n ∧ intStr n ≠ [] := by
  obtain ⟨_, hne, hdig⟩ := natDigits_correct n.natAbs
  simp only [List.all_eq_true, isDigitB, decide_eq_true_eq] at hdig
  simp only [intStr]
  split
  · refine ⟨?_, by simp⟩
    intro hmem
    simp only [List.mem_cons] at hmem
    rcases hmem with h | h
    · omega
    · have := hdig 58 h
      omega
  · refine ⟨fun hmem => ?_, hne⟩
    have := hdig 58 hmem
    omega

theorem intStr_inj (n1 n2 : Int) (h : intStr n1 = intStr n2) : n1 = n2 := by
  have hd1 := natDigits_correct n1.natAbs
  have hd2 := natDigits_correct n2.natAbs
  have habs : ∀ m1 m2 : Nat, natDigits m1 = natDigits m2 → m1 = m2 := by
    intro m1 m2 hm
    have e1 := (natDigits_correct m1).1
    have e2 := (natDigits_correct m2).1
    rw [← e1, hm, e2]
  have hhead45 : ∀ m : Nat, 45 ∉ natDigits m := by
    intro m hmem
    have := (natDigits_correct m).2.2
    simp only [List.all_eq_true, isDigitB, decide_eq_true_eq] at this
    have := this 45 hmem
    omega
  simp only [intStr] at h
  split at h <;> split at h
  · next hn1 hn2 =>
    simp only [List.cons.injEq] at h
    have := habs n1.natAbs n2.natAbs h.2
    omega
  · next hn1 hn2 =>
    exfalso
    have hne2 := (natDigits_correct n2.natAbs).2.1
    cases hnd : natDigits n2.natAbs with
    | nil => exact hne2 hnd
    | cons x xs =>
      rw [hnd] at h
      have : x = 45 := by
        have := congrArg (fun l => l.headD 0) h
        simpa using this.symm
      exact hhead45 n2.natAbs (by rw [hnd, this]; exact List.mem_cons_self 45 xs)
  · next hn1 hn2 =>
    exfalso
    have hne1 := (natDigits_correct n1.natAbs).2.1
    cases hnd : natDigits n1.natAbs with
    | nil => exact hne1 hnd
    | cons x xs =>
      rw [hnd] at h
      have : x = 45 := by
        have := congrArg (fun l => l.headD 0) h
        simpa using this
      exact hhead45 n1.natAbs (by rw [hnd, this]; exact List.mem_cons_self 45 xs)
  · next hn1 hn2 =>
    have := habs n1.natAbs n2.natAbs h
    omega

/-! ## `str.find` over an extension of the text -/

theorem isPrefixOf_append_of_le (pat x s : List Nat) (h : pat.length ≤ x.length) :
    pat.isPrefixOf (x ++ s) = pat.isPrefixOf x := by
  cases hp : pat.isPrefixOf x with
  | true =>
    have := List.isPrefixOf_iff_prefix.mp hp
    exact (List.isPrefixOf_iff_prefix.mpr (this.trans (List.prefix_append x s)))
  | false =>
    cases hp2 : pat.isPrefixOf (x ++ s) with
    | false => rfl
    | true =>
      exfalso
      have h2 := List.prefix_iff_eq_take.mp (List.isPrefixOf_iff_prefix.mp hp2)
      rw [List.take_append_of_le_length h] at h2
      have : pat.isPrefixOf x = true :=
        List.isPrefixOf_iff_prefix.mpr (List.prefix_iff_eq_take.mpr h2)
      rw [this] at hp
      exact Bool.noConfusion hp

theorem findSubA_some_bound (pat : List Nat) :
    ∀ (l : List Nat) (i j : Nat), findSubA pat i l = some j →
      i ≤ j ∧ j - i + pat.length ≤ l.length := by
  intro l
  induction l with
  | nil =>
    intro i j h
    simp only [findSubA] at h
    split at h
    · next hp =>
      simp only [Option.some.injEq] at h
      subst h
      have := (List.isPrefixOf_iff_prefix.mp hp).length_le
      simp only [List.length_nil] at this ⊢
      omega
    · exact Option.noConfusion h
  | cons c rest ih =>
    intro i j h
    simp only [findSubA] at h
    split at h
    · next hp =>
      simp only [Option.some.injEq] at h
      subst h
      have := (List.isPrefixOf_iff_prefix.mp hp).length_le
      simp only [List.length_cons] at this ⊢
      omega
    · obtain ⟨h1, h2⟩ := ih (i + 1) j h
      simp only [List.length_cons]
      omega

theorem findSubA_append_of_some (pat suffix : List Nat) :
    ∀ (base : List Nat) (i j : Nat), findSubA pat i base = some j →
      findSubA pat i (base ++ suffix) = some j := by
  intro base
  induction base with
  | nil =>
    intro i j h
    simp only [findSubA] at h
    split at h
    · next hp =>
      simp only [Option.some.injEq] at h
      subst h
      have hpat : pat = [] := List.prefix_nil.mp (List.isPrefixOf_iff_prefix.mp hp)
      subst hpat
      simp only [List.nil_append]
      cases suffix with
      | nil => simp [findSubA]
      | cons c rest => simp [findSubA, List.isPrefixOf]
    · exact Option.noConfusion h
  | cons c rest ih =>
    intro i j h
    simp only [findSubA] at h
    split at h
    · next hp =>
      simp only [Option.some.injEq] at h
      subst h
      rw [List.cons_append]
      simp only [findSubA]
      have hcond : pat.isPrefixOf (c :: (rest ++ suffix)) = true := by
        rw [← List.cons_append]
        exact List.isPrefixOf_iff_prefix.mpr
          ((List.isPrefixOf_iff_prefix.mp hp).trans (List.prefix_append _ suffix))
      rw [if_pos hcond]
    · next hp =>
      obtain ⟨h1, h2⟩ := findSubA_some_bound pat rest (i + 1) j h
      have hwin : pat.length ≤ (c :: rest).length := by
        simp only [List.length_cons]
        omega
      have hcond : pat.isPrefixOf (c :: (rest ++ suffix)) = pat.isPrefixOf (c :: rest) := by
        rw [← List.cons_append]
        exact isPrefixOf_append_of_le pat (c :: rest) suffix hwin
      rw [List.cons_append]
      simp only [findSubA]
      rw [hcond, if_neg (by simpa using hp)]
      exact ih (i + 1) j h

theorem findSub_append_of_some (pat base suffix : List Nat) (i : Nat)
    (h : findSub pat base = some i) : findSub pat (base ++ suffix) = some i :=
  findSubA_append_of_some pat suffix base 0 i h

theorem splitFirstSub_append (pat base suffix : List Nat) (i : Nat)
    (h : findSub pat base = some i) :
    splitFirstSub pat (base ++ suffix) =
      some (base.take i, base.drop (i + pat.length) ++ suffix) := by
  have hb := findSubA_some_bound pat base 0 i h
  simp only [splitFirstSub, findSub_append_of_some pat base suffix i h, Option.map_some']
  rw [List.take_append_of_le_length (by omega), List.drop_append_of_le_length (by omega)]

/-- `_remark_url_fragment` ignores the original fragment: two URLs equal up to
their first `#` get the same rewritten form. -/
theorem remarkUrlFragment_label_independent (base lab1 lab2 : List Nat)
    (hb : 35 ∉ base) (hscheme : containsSub (bytes (r"://")) base = true) :
    remarkUrlFragment (base ++ 35 :: lab1) = remarkUrlFragment (base ++ 35 :: lab2) := by
  obtain ⟨i, hi⟩ : ∃ i, findSub (bytes (r"://")) base = some i := by
    simp only [containsSub, Option.isSome_iff_exists] at hscheme
    obtain ⟨i, hi⟩ := hscheme
    exact ⟨i, hi⟩
  have hsplit1 := splitFirstSub_append (bytes (r"://")) base (35 :: lab1) i hi
  have hsplit2 := splitFirstSub_append (bytes (r"://")) base (35 :: lab2) i hi
  have hdropmem : 35 ∉ base.drop (i + (bytes (r"://")).length) :=
    fun hmem => hb (List.drop_subset _ base hmem)
  obtain ⟨htw1, _⟩ := takeWhile_ne_append (base.drop (i + (bytes (r"://")).length)) 35
    lab1 hdropmem
  obtain ⟨htw2, _⟩ := takeWhile_ne_append (base.drop (i + (bytes (r"://")).length)) 35
    lab2 hdropmem
  simp only [remarkUrlFragment, hsplit1, hsplit2, takeUntilByte, htw1, htw2]

/-- One dedup step of `goProcess` unfolded (definitional). -/
theorem goProcess_cons (seen : List (List Nat)) (l : List Nat) (rest : List (List Nat)) :
    goProcess seen (l :: rest) =
      match parseLine (pyStrip l) with
      | none => goProcess seen rest
      | some c =>
        if keyOf c ∈ seen then goProcess seen rest
        else c :: goProcess (keyOf c :: seen) rest := rfl

/-- C1: two descriptors whose protocol, host and port (hence all identity
parameters) agree — their display labels may differ — receive the same
identity key `f"{protocol}:{host}:{port}"`, and `process_configs` keeps
exactly one of them, the first encountered (their scores are necessarily tied,
since every scoring input coincides).  In the `update_configs` variant the
same holds because `_remark_url_fragment` rewrites two fragment-variant URLs
to the identical string, which `set()` then collapses. -/
theorem C1_identity_key_dedup (l1 l2 : List Nat) (c1 c2 : CConfig)
    (h1 : parseLine (pyStrip l1) = some c1) (h2 : parseLine (pyStrip l2) = some c2)
    (hproto : c1.proto = c2.proto) (hhost : c1.host = c2.host)
    (hport : c1.port = c2.port) :
    keyOf c1 = keyOf c2 ∧ processLines [l1, l2] = [c1] ∧
    (∀ base lab1 lab2 : List Nat, 35 ∉ base → containsSub (bytes (r"://")) base = true →
      remarkUrlFragment (base ++ 35 :: lab1) = remarkUrlFragment (base ++ 35 :: lab2)) := by
  have hk : keyOf c1 = keyOf c2 := by
    simp [keyOf, hproto, hhost, hport]
  refine ⟨hk, ?_, fun base lab1 lab2 hb hs =>
    remarkUrlFragment_label_independent base lab1 lab2 hb hs⟩
  have hstep2 : goProcess [keyOf c1] [l2] = [] := by
    rw [goProcess_cons, h2]
    dsimp only []
    rw [if_pos (List.mem_singleton.mpr hk.symm)]
    rfl
  rw [processLines, goProcess_cons, h1]
  dsimp only []
  rw [if_neg (List.not_mem_nil _), hstep2]

theorem C1_identity_key_dedup_witness :
    parseLine (pyStrip c1Line) = some c1Conf ∧
    parseLine (pyStrip c1LineB) = some c1ConfB ∧
    c1Conf.proto = c1ConfB.proto ∧ c1Conf.host = c1ConfB.host ∧
    c1Conf.port = c1ConfB.port ∧ c1Line ≠ c1LineB ∧
    (keyOf c1Conf = keyOf c1ConfB ∧ processLines [c1Line, c1LineB] = [c1Conf] ∧
    (∀ base lab1 lab2 : List Nat, 35 ∉ base → containsSub (bytes (r"://")) base = true →
      remarkUrlFragment (base ++ 35 :: lab1) = remarkUrlFragment (base ++ 35 :: lab2))) := by
  refine ⟨by decide, by decide, by decide, by decide, by decide, by decide, ?_⟩
  exact C1_identity_key_dedup c1Line c1LineB c1Conf c1ConfB (by decide) (by decide)
    (by decide) (by decide) (by decide)

/-- C9: the collector's dedup key is exactly the `(scheme, host, port)`
triple: appending a later line whose parse shares the key of an earlier line
leaves the output unchanged (the later descriptor is dropped, whatever its
transport/security/credential parameters), the first descriptor with that key
is retained, and for URI-branch records the key determines — and is determined
by — the triple. -/
theorem C9_dedup_key_triple (A B : List (List Nat)) (l1 l2 : List Nat) (c1 c2 : CConfig)
    (h1 : parseLine (pyStrip l1) = some c1) (h2 : parseLine (pyStrip l2) = some c2)
    (hkey : keyOf c1 = keyOf c2)
    (hA : ∀ l ∈ A, ∀ c, parseLine (pyStrip l) = some c → keyOf c ≠ keyOf c1) :
    processLines (A ++ l1 :: B ++ [l2]) = processLines (A ++ l1 :: B) ∧
    c1 ∈ processLines (A ++ l1 :: B) ∧
    (∀ (p1 hs1 : List Nat) (n1 : Int) (p2 hs2 : List Nat) (n2 : Int)
      (lk1 o1 lk2 o2 : List Nat), 58 ∉ p1 → 58 ∉ p2 →
      (keyOf ⟨p1, lk1, .jstr hs1, .jnum n1, o1⟩ = keyOf ⟨p2, lk2, .jstr hs2, .jnum n2, o2⟩ ↔
        (p1 = p2 ∧ hs1 = hs2 ∧ n1 = n2))) := by
  refine ⟨?_, ?_, ?_⟩
  · have hassoc : A ++ l1 :: B ++ [l2] = (A ++ l1 :: B) ++ [l2] := by simp
    rw [hassoc, processLines, goProcess_append (A ++ l1 :: B) [l2] []]
    have hmem : keyOf c2 ∈ keysAfter [] (A ++ l1 :: B) := by
      rw [← hkey]
      exact key_mem_keysAfter (A ++ l1 :: B) [] l1 c1 (by simp) h1
    have hlast : goProcess (keysAfter [] (A ++ l1 :: B)) [l2] = [] := by
      rw [goProcess_cons, h2]
      dsimp only []
      rw [if_pos hmem]
      rfl
    rw [hlast, List.append_nil]
    rfl
  · rw [processLines, goProcess_append A (l1 :: B) []]
    have hnot : keyOf c1 ∉ keysAfter [] A := by
      intro hmem
      rcases mem_keysAfter_src A [] (keyOf c1) hmem with h | ⟨l, hl, c, hc, hk⟩
      · exact absurd h (List.not_mem_nil _)
      · exact hA l hl c hc hk
    refine List.mem_append_right _ ?_
    rw [goProcess_cons, h1]
    dsimp only []
    rw [if_neg hnot]
    exact List.mem_cons_self c1 _
  · intro p1 hs1 n1 p2 hs2 n2 lk1 o1 lk2 o2 hp1 hp2
    have hshape : ∀ (p hs : List Nat) (n : Int) (lk o : List Nat),
        keyOf ⟨p, lk, .jstr hs, .jnum n, o⟩ = p ++ 58 :: (hs ++ 58 :: intStr n) := by
      intro p hs n lk o
      rfl
    rw [hshape, hshape]
    constructor
    · intro h
      obtain ⟨hpp, hrest⟩ := sepSplitUnique p1 (hs1 ++ 58 :: intStr n1) p2
        (hs2 ++ 58 :: intStr n2) hp1 hp2 h
      obtain ⟨hhh, hdd⟩ := sepSplitUniqueLast hs1 (intStr n1) hs2 (intStr n2)
        (intStr_digits n1).1 (intStr_digits n2).1 hrest
      exact ⟨hpp, hhh, intStr_inj n1 n2 hdd⟩
    · rintro ⟨rfl, rfl, rfl⟩
      rfl

theorem C9_dedup_key_triple_witness :
    parseLine (pyStrip c9LineA) = some c9ConfA ∧
    parseLine (pyStrip c9LineB) = some c9ConfB ∧
    keyOf c9ConfA = keyOf c9ConfB ∧ c9ConfA ≠ c9ConfB ∧
    (processLines ([] ++ c9LineA :: [] ++ [c9LineB]) = processLines ([] ++ c9LineA :: []) ∧
    c9ConfA ∈ processLines ([] ++ c9LineA :: []) ∧
    (∀ (p1 hs1 : List Nat) (n1 : Int) (p2 hs2 : List Nat) (n2 : Int)
      (lk1 o1 lk2 o2 : List Nat), 58 ∉ p1 → 58 ∉ p2 →
      (keyOf ⟨p1, lk1, .jstr hs1, .jnum n1, o1⟩ = keyOf ⟨p2, lk2, .jstr hs2, .jnum n2, o2⟩ ↔
        (p1 = p2 ∧ hs1 = hs2 ∧ n1 = n2)))) := by
  refine ⟨by decide, by decide, by decide, by decide, ?_⟩
  exact C9_dedup_key_triple [] [] c9LineA c9LineB c9ConfA c9ConfB (by decide) (by decide)
    (by decide) (by simp)

/-- C6: the reachability stage is a pure filter.  In the collector, the
zip-recombined healthy list is exactly the probe-passing subset of the input
(projected to its unmodified `link` strings); in `update_configs`, whatever
order the concurrent probes complete in, a config is in the healthy list iff
it was submitted and its probe returned `True`; and for the DNS-only
protocols (`hy2`/`hysteria2`) the outcome is independent of the TCP oracle,
while for `vless` it is independent of the DNS oracle. -/
theorem C6_probe_pure_filter :
    (∀ (probe : JVal → JVal → Bool) (cs : List CConfig),
      filter_healthy probe cs = (cs.filter (fun c => probe c.host c.port)).map
        (fun c => c.link)) ∧
    (∀ (hp : List Nat → Except Unit Bool) (order cs : List (List Nat)), order.Perm cs →
      ∀ c, c ∈ mainHealthyUC hp order ↔ c ∈ cs ∧ hp c = .ok true) ∧
    (∀ (tcp tcp' : List Nat → Int → Bool) (dns : List Nat → Bool) (t : List Nat),
      is_healthy tcp dns (bytes (r"hy2://") ++ t) =
        is_healthy tcp' dns (bytes (r"hy2://") ++ t)) ∧
    (∀ (tcp : List Nat → Int → Bool) (dns dns' : List Nat → Bool) (t : List Nat),
      is_healthy tcp dns (bytes (r"vless://") ++ t) =
        is_healthy tcp dns' (bytes (r"vless://") ++ t)) := by
  refine ⟨?_, ?_, ?_, ?_⟩
  · intro probe cs
    induction cs with
    | nil => rfl
    | cons c cs ih =>
      simp only [filter_healthy] at ih ⊢
      simp only [List.map_cons, List.zip_cons_cons, List.filterMap_cons, List.filter_cons]
      cases hp : probe c.host c.port with
      | true => simp [hp, ih]
      | false => simp [hp, ih]
  · intro hp order cs hperm c
    simp only [mainHealthyUC, List.mem_filterMap]
    constructor
    · rintro ⟨a, ha, hfa⟩
      rcases hm : hp a with e | b
      · rw [hm] at hfa
        exact Option.noConfusion hfa
      · rw [hm] at hfa
        cases b with
        | true =>
          simp only [Option.some.injEq] at hfa
          subst hfa
          exact ⟨hperm.mem_iff.mp ha, hm⟩
        | false => exact Option.noConfusion hfa
    · rintro ⟨hc, hok⟩
      exact ⟨c, hperm.mem_iff.mpr hc, by rw [hok]⟩
  · intro tcp tcp' dns t
    have hlow : lowerB (bytes (r"hy2://") ++ t) = bytes (r"hy2://") ++ lowerB t := rfl
    have hv : startsWithB (bytes (r"vmess://")) (bytes (r"hy2://") ++ lowerB t) = false := rfl
    have hvl : startsWithB (bytes (r"vless://")) (bytes (r"hy2://") ++ lowerB t) = false := rfl
    have hh : startsWithB (bytes (r"hy2://")) (bytes (r"hy2://") ++ lowerB t) = true := by
      exact List.isPrefixOf_iff_prefix.mpr (List.prefix_append _ _)
    simp only [is_healthy, hlow, hv, hvl, hh, Bool.false_eq_true, if_false, true_or,
      if_true]
  · intro tcp dns dns' t
    have hlow : lowerB (bytes (r"vless://") ++ t) = bytes (r"vless://") ++ lowerB t := rfl
    have hv : startsWithB (bytes (r"vmess://")) (bytes (r"vless://") ++ lowerB t) = false :=
      rfl
    have hvl : startsWithB (bytes (r"vless://")) (bytes (r"vless://") ++ lowerB t) = true := by
      exact List.isPrefixOf_iff_prefix.mpr (List.prefix_append _ _)
    simp only [is_healthy, hlow, hv, hvl, Bool.false_eq_true, if_false, if_true]

theorem C6_probe_pure_filter_witness :
    ((fun (_ : JVal) (_ : JVal) => true) = (fun (_ : JVal) (_ : JVal) => true) ∧
      List.Perm [bytes (r"a"), bytes (r"b")] [bytes (r"b"), bytes (r"a")]) ∧
    (∀ (probe : JVal → JVal → Bool) (cs : List CConfig),
      filter_healthy probe cs = (cs.filter (fun c => probe c.host c.port)).map
        (fun c => c.link)) ∧
    (∀ c, c ∈ mainHealthyUC (fun _ => .ok true) [bytes (r"a"), bytes (r"b")] ↔
      c ∈ [bytes (r"b"), bytes (r"a")] ∧
        (fun (_ : List Nat) => (.ok true : Except Unit Bool)) c = .ok true) := by
  refine ⟨⟨rfl, by decide⟩, C6_probe_pure_filter.1, ?_⟩
  exact C6_probe_pure_filter.2.1 (fun _ => .ok true) [bytes (r"a"), bytes (r"b")]
    [bytes (r"b"), bytes (r"a")] (by decide)

theorem findSubA_singleton_none (c : Nat) :
    ∀ (l : List Nat) (i : Nat), c ∉ l → findSubA [c] i l = none := by
  intro l
  induction l with
  | nil => intro i _; rfl
  | cons b rest ih =>
    intro i h
    have hcb : c ≠ b := fun hcb => h (by simp [hcb])
    simp only [findSubA]
    rw [if_neg ?_]
    · exact ih (i + 1) (fun hm => h (by simp [hm]))
    · intro hpre
      have := List.isPrefixOf_iff_prefix.mp hpre
      rw [List.prefix_iff_eq_take] at this
      simp only [List.length_singleton, List.take_succ_cons, List.take_zero,
        List.cons.injEq] at this
      exact hcb this.1

theorem splitFirstSub_singleton_none (c : Nat) (l : List Nat) (h : c ∉ l) :
    splitFirstSub [c] l = none := by
  simp [splitFirstSub, findSub, findSubA_singleton_none c l 0 h]

theorem splitLastByte_right_subset (c : Nat) (l a b : List Nat)
    (h : splitLastByte c l = some (a, b)) : ∀ x ∈ b, x ∈ l := by
  simp only [splitLastByte] at h
  cases hsf : splitFirstSub [c] l.reverse with
  | none => rw [hsf] at h; exact Option.noConfusion h
  | some p =>
    rw [hsf] at h
    simp only [Option.some.injEq, Prod.mk.injEq] at h
    obtain ⟨_, hb⟩ := h
    simp only [splitFirstSub] at hsf
    cases hfd : findSub [c] l.reverse with
    | none => rw [hfd] at hsf; exact Option.noConfusion hsf
    | some i =>
      rw [hfd] at hsf
      simp only [Option.map_some', Option.some.injEq] at hsf
      intro x hx
      rw [← hb, ← hsf] at hx
      simp only [List.mem_reverse] at hx
      have := List.take_subset i l.reverse hx
      simpa using this

theorem pyHostInfo_snd_none (netloc : List Nat) (h58 : 58 ∉ netloc) (h91 : 91 ∉ netloc) :
    (pyHostInfo netloc).2 = none := by
  unfold pyHostInfo
  cases hsl : splitLastByte 64 netloc with
  | none =>
    dsimp only []
    rw [splitFirstSub_singleton_none 91 netloc h91]
    dsimp only []
    rw [splitFirstSub_singleton_none 58 netloc h58]
    simp
  | some p =>
    have hsub := splitLastByte_right_subset 64 netloc p.1 p.2 (by rw [hsl])
    dsimp only []
    rw [splitFirstSub_singleton_none 91 p.2 (fun hm => h91 (hsub 91 hm))]
    dsimp only []
    rw [splitFirstSub_singleton_none 58 p.2 (fun hm => h58 (hsub 58 hm))]
    simp

/-- C7: when the port component is absent, `collector.parse_general` defaults
the port to 443 (for every protocol it handles); `collector.parse_vmess`
reports no port and the line is dropped by `process_configs` (no default);
and `update_configs._parse_host_port_from_url` returns `None` (parse failure
for that line, no default). -/
theorem C7_port_absent (url proto line u : List Nat) (lk : List Nat)
    (hostOpt : Option JVal)
    (h91 : (pgHostPort url proto).head? ≠ some 91)
    (hcol : containsSub [58] (pgHostPort url proto) = false)
    (hvm : protoOf line = some (bytes (r"vmess")))
    (hpv : parse_vmess line = some (lk, hostOpt, none))
    (h58 : 58 ∉ urlNetloc u) (h91u : 91 ∉ urlNetloc u) :
    parse_general url proto = some (pgNewUrl url, pgHostPort url proto, 443) ∧
    parseLine line = none ∧
    parseHostPortFromUrl u = .ok none := by
  refine ⟨?_, ?_, ?_⟩
  · rw [parse_general.eq_def]
    dsimp only []
    split
    · next t heq => exact absurd (by rw [heq]; rfl) h91
    · rw [if_neg (by simp [hcol])]
  · rw [parseLine.eq_def, hvm]
    dsimp only []
    rw [if_pos rfl, hpv]
    dsimp only []
    cases hostOpt <;> rfl
  · have hsnd := pyHostInfo_snd_none (urlNetloc u) h58 h91u
    rw [parseHostPortFromUrl.eq_def]
    dsimp only []
    rw [hsnd]

theorem C7_port_absent_witness :
    ((pgHostPort c7Url (bytes (r"vless"))).head? ≠ some 91 ∧
     containsSub [58] (pgHostPort c7Url (bytes (r"vless"))) = false ∧
     protoOf c7VmessLine = some (bytes (r"vmess")) ∧
     parse_vmess c7VmessLine = some (c7VmessParsed.1, c7VmessParsed.2.1, none) ∧
     58 ∉ urlNetloc c7Url ∧ 91 ∉ urlNetloc c7Url) ∧
    (parse_general c7Url (bytes (r"vless")) =
      some (pgNewUrl c7Url, pgHostPort c7Url (bytes (r"vless")), 443) ∧
     parseLine c7VmessLine = none ∧
     parseHostPortFromUrl c7Url = .ok none) := by
  refine ⟨⟨by decide, by decide, by decide, by decide, by decide, by decide⟩, ?_⟩
  exact C7_port_absent c7Url (bytes (r"vless")) c7VmessLine c7Url c7VmessParsed.1
    c7VmessParsed.2.1 (by decide) (by decide) (by decide) (by decide) (by decide)
    (by decide)

/-- The fixed canonical enumeration `pySetList cs` is one admissible
iteration order of `set(cs)`. -/
theorem isSetEnum_pySetList (cs : List (List Nat)) : isSetEnum cs (pySetList cs) := by
  refine ⟨(List.perm_insertionSort rLex cs.dedup).nodup_iff.mpr cs.nodup_dedup, ?_, ?_⟩
  · intro x hx
    exact List.mem_dedup.mp ((List.perm_insertionSort rLex cs.dedup).mem_iff.mp hx)
  · intro x hx
    exact (List.perm_insertionSort rLex cs.dedup).mem_iff.mpr (List.mem_dedup.mpr hx)

/-- The fixed-enumeration writer is the enumeration-quantified writer at the
canonical enumeration. -/
theorem update_index_uc_eq_ucE (meta cs : List (List Nat)) :
    update_index_uc meta cs = update_index_ucE meta (pySetList cs) := rfl

/-- Two `rLower`-sorted permutations of each other coincide when the
lowercase key is injective on their elements (`rLower` alone is not
antisymmetric: case variants tie). -/
theorem sorted_perm_eq_of_lower_inj (l1 : List (List Nat)) :
    ∀ l2 : List (List Nat), l1.Perm l2 → l1.Sorted rLower → l2.Sorted rLower →
      (∀ x ∈ l1, ∀ y ∈ l1, lowerB x = lowerB y → x = y) → l1 = l2 := by
  induction l1 with
  | nil =>
    intro l2 hp _ _ _
    exact (List.Perm.eq_nil hp.symm).symm
  | cons a t1 ih =>
    intro l2 hp hs1 hs2 hinj
    cases l2 with
    | nil => exact (List.cons_ne_nil a t1 (List.Perm.eq_nil hp)).elim
    | cons b t2 =>
      by_cases hab : a = b
      · subst hab
        have hp' := hp.cons_inv
        have ht := ih t2 hp' hs1.of_cons hs2.of_cons
          (fun x hx y hy => hinj x (List.mem_cons_of_mem _ hx) y (List.mem_cons_of_mem _ hy))
        rw [ht]
      · have hat2 : a ∈ t2 := by
          cases List.mem_cons.mp (hp.subset (List.mem_cons_self a t1)) with
          | inl h => exact absurd h hab
          | inr h => exact h
        have hbt1 : b ∈ t1 := by
          cases List.mem_cons.mp (hp.symm.subset (List.mem_cons_self b t2)) with
          | inl h => exact absurd h.symm hab
          | inr h => exact h
        have hr1 : rLower a b := (List.pairwise_cons.mp hs1).1 b hbt1
        have hr2 : rLower b a := (List.pairwise_cons.mp hs2).1 a hat2
        have hlow : lowerB a = lowerB b :=
          IsAntisymm.antisymm (r := rLex) (lowerB a) (lowerB b) hr1 hr2
        exact absurd
          (hinj a (List.mem_cons_self a t1) b (List.mem_cons_of_mem _ hbt1) hlow) hab

/-- C10 counterexample: the artifact bytes are NOT a function of the survivor
set and metadata alone.  `sorted(set(configs), key=lambda x: x.lower())` is a
stable sort over the set enumeration order, which CPython does not fix (it
varies with the hash seed and with insertion order, hence with probe
completion order): the two case-variant descriptors below tie on the
lowercase key, both listed orders are admissible enumerations of the same
survivor set, and they yield different artifact contents. -/
theorem C10_artifact_not_bytewise_deterministic_cex :
    c10A ≠ c10B ∧ lowerB c10A = lowerB c10B ∧
    isSetEnum [c10A, c10B] [c10A, c10B] ∧ isSetEnum [c10A, c10B] [c10B, c10A] ∧
    update_index_ucE defaultMeta [c10A, c10B] ≠
      update_index_ucE defaultMeta [c10B, c10A] :=
  ⟨by decide, by decide, ⟨by decide, by decide, by decide⟩,
   ⟨by decide, by decide, by decide⟩, by decide⟩

/-- C10 (amended): over every admissible enumeration of the survivor set the
artifact body is the duplicate-free survivor set sorted by its lowercase
form (sorted, no duplicates, same line set), and the artifact bytes coincide
across ALL enumerations — hence across all probe completion orders and hash
seeds — when no two distinct survivors share a lowercase form; under that
injectivity the content is a deterministic function of the survivor set and
the metadata. -/
theorem C10_artifact_deterministic (meta cs enum1 enum2 : List (List Nat))
    (h1 : isSetEnum cs enum1) (h2 : isSetEnum cs enum2) :
    ((pySortedSetE enum1).Sorted rLower ∧ (pySortedSetE enum1).Nodup ∧
     (∀ c, c ∈ pySortedSetE enum1 ↔ c ∈ cs)) ∧
    ((∀ x ∈ cs, ∀ y ∈ cs, lowerB x = lowerB y → x = y) →
      update_index_ucE meta enum1 = update_index_ucE meta enum2) := by
  obtain ⟨hnd1, hsub1, hsup1⟩ := h1
  obtain ⟨hnd2, hsub2, hsup2⟩ := h2
  constructor
  · refine ⟨List.sorted_insertionSort rLower enum1,
      (List.perm_insertionSort rLower enum1).nodup_iff.mpr hnd1, ?_⟩
    intro c
    unfold pySortedSetE
    rw [(List.perm_insertionSort rLower enum1).mem_iff]
    exact ⟨fun h => hsub1 c h, fun h => hsup1 c h⟩
  · intro hinj
    have hmem : ∀ a, a ∈ enum1 ↔ a ∈ enum2 := fun a =>
      ⟨fun h => hsup2 a (hsub1 a h), fun h => hsup1 a (hsub2 a h)⟩
    have hpe : enum1.Perm enum2 := (List.perm_ext_iff_of_nodup hnd1 hnd2).mpr hmem
    have hps : (pySortedSetE enum1).Perm (pySortedSetE enum2) :=
      ((List.perm_insertionSort rLower enum1).trans hpe).trans
        (List.perm_insertionSort rLower enum2).symm
    have hinj2 : ∀ x ∈ pySortedSetE enum1, ∀ y ∈ pySortedSetE enum1,
        lowerB x = lowerB y → x = y := by
      intro x hx y hy
      exact hinj x (hsub1 x ((List.perm_insertionSort rLower enum1).mem_iff.mp hx))
        y (hsub1 y ((List.perm_insertionSort rLower enum1).mem_iff.mp hy))
    have hbody : pySortedSetE enum1 = pySortedSetE enum2 :=
      sorted_perm_eq_of_lower_inj (pySortedSetE enum1) (pySortedSetE enum2) hps
        (List.sorted_insertionSort rLower enum1)
        (List.sorted_insertionSort rLower enum2) hinj2
    unfold update_index_ucE
    rw [hbody]

theorem C10_artifact_deterministic_witness :
    (isSetEnum [bytes (r"A"), bytes (r"b")] [bytes (r"A"), bytes (r"b")] ∧
     isSetEnum [bytes (r"A"), bytes (r"b")] [bytes (r"b"), bytes (r"A")]) ∧
    (((pySortedSetE [bytes (r"A"), bytes (r"b")]).Sorted rLower ∧
      (pySortedSetE [bytes (r"A"), bytes (r"b")]).Nodup ∧
      (∀ c, c ∈ pySortedSetE [bytes (r"A"), bytes (r"b")] ↔
        c ∈ [bytes (r"A"), bytes (r"b")])) ∧
     ((∀ x ∈ [bytes (r"A"), bytes (r"b")], ∀ y ∈ [bytes (r"A"), bytes (r"b")],
        lowerB x = lowerB y → x = y) →
       update_index_ucE defaultMeta [bytes (r"A"), bytes (r"b")] =
         update_index_ucE defaultMeta [bytes (r"b"), bytes (r"A")])) := by
  refine ⟨⟨⟨by decide, by decide, by decide⟩, ⟨by decide, by decide, by decide⟩⟩, ?_⟩
  exact C10_artifact_deterministic defaultMeta [bytes (r"A"), bytes (r"b")]
    [bytes (r"A"), bytes (r"b")] [bytes (r"b"), bytes (r"A")]
    ⟨by decide, by decide, by decide⟩ ⟨by decide, by decide, by decide⟩

/-- C4 counterexample: the claim is false — the pipeline has no `MAX_OUTPUT`
cap at all.  For every candidate bound `N` there is a surviving set whose
written artifact exceeds it, so no constant bounds the emitted lines. -/
theorem C4_no_output_cap_cex :
    ¬ ∃ N : Nat, ∀ (cs out : List (List Nat)),
      update_index_uc defaultMeta cs = some out → out.length ≤ N := by
  rintro ⟨N, hN⟩
  set cs := (List.range (N + 1)).map (fun i => List.replicate i 97) with hcs
  have hinj : Function.Injective (fun i : Nat => List.replicate i 97) := by
    intro a b h
    have := congrArg List.length h
    simpa using this
  have hnd : cs.Nodup := List.Nodup.map hinj (List.nodup_range (N + 1))
  have hlen : (pySortedSet cs).length = N + 1 := by
    have hperm := pySortedSet_perm_dedup cs
    have hd : cs.dedup = cs := List.dedup_eq_self.mpr hnd
    rw [hperm.length_eq, hd, hcs]
    simp
  obtain ⟨rl, hrl⟩ : ∃ rl, buildRedirectLines defaultMeta = some rl := ⟨_, rfl⟩
  have hout : update_index_uc defaultMeta cs =
      some (defaultMeta.map rstripNl ++ rl.map rstripNl ++
        (pySortedSet cs).map rstripNl) := by
    unfold update_index_uc
    rw [hrl]
  have hb := hN cs _ hout
  simp only [List.length_append, List.length_map, hlen] at hb
  omega

/-- C4 amended: the selector truncates nothing and orders by lowercase, not
by score: the written body is exactly the duplicate-free set of surviving
descriptors sorted by their lowercase form — every survivor is emitted (there
is no `MAX_OUTPUT` cap and no scoring in the code). -/
theorem C4_selector_no_truncation (cs : List (List Nat)) :
    (∀ c, c ∈ pySortedSet cs ↔ c ∈ cs) ∧ (pySortedSet cs).Nodup ∧
    (pySortedSet cs).Sorted rLower ∧ (pySortedSet cs).length = cs.dedup.length :=
  ⟨mem_pySortedSet cs, pySortedSet_nodup cs, pySortedSet_sorted cs,
    (pySortedSet_perm_dedup cs).length_eq⟩

/-- The detected script suffix really is a suffix of the previous artifact. -/
theorem scriptPart_suffix (lines : List (List Nat)) : scriptPart lines <:+ lines := by
  unfold scriptPart
  dsimp only []
  split
  · exact List.nil_suffix
  · rw [← List.reverse_prefix]
    rw [List.reverse_reverse]
    exact List.take_prefix _ _

/-- When no line holds the `<script>` marker, the detected tail is empty. -/
theorem scriptPart_eq_nil (lines : List (List Nat))
    (h : ∀ l ∈ lines, containsSub scriptTag l = false) : scriptPart lines = [] := by
  unfold scriptPart
  dsimp only []
  have htw : lines.reverse.takeWhile (fun l => !containsSub scriptTag l) = lines.reverse := by
    rw [List.takeWhile_eq_self_iff]
    intro x hx
    simp [h x (List.mem_reverse.mp hx)]
  rw [if_pos (by rw [htw, List.length_reverse])]

/-- C3 counterexample: the claim is false for the `update_configs` writer —
the tail block is generated, not copied.  With a previous artifact whose tail
is the line `<script>old`, the rewritten artifact does not contain that line
at all; it contains the freshly generated `<script>` block instead. -/
theorem C3_tail_not_preserved_cex :
    (update_index_uc
        (read_existing_meta (some [bytes (r"#profile-title: base64:4pisU0jOnk7ihKI="),
          bytes (r"vless://x"), bytes (r"<script>old")]))
        [bytes (r"vless://x")]).isSome = true ∧
    bytes (r"<script>old") ∉
      (update_index_uc
        (read_existing_meta (some [bytes (r"#profile-title: base64:4pisU0jOnk7ihKI="),
          bytes (r"vless://x"), bytes (r"<script>old")]))
        [bytes (r"vless://x")]).getD [] ∧
    scriptTag ∈
      (update_index_uc
        (read_existing_meta (some [bytes (r"#profile-title: base64:4pisU0jOnk7ihKI="),
          bytes (r"vless://x"), bytes (r"<script>old")]))
        [bytes (r"vless://x")]).getD [] := by
  refine ⟨by decide, by decide, by decide⟩

/-- C3 amended: the collector writer copies the header block and the script
tail of the previous artifact verbatim (a prefix and a suffix of it) around
the regenerated body, and still writes the complete frame when the descriptor
set is empty; the `update_configs` writer instead generates its tail block
from configuration and the metadata's profile title on every run. -/
theorem C3_collector_frame_preserved (prevLines cs : List (List Nat)) :
    update_index_coll (some prevLines) cs =
      some (headerPart prevLines ++
        (if headerPart prevLines ≠ [] ∧ ¬ isBlankL ((headerPart prevLines).getLastD [])
          then [([] : List Nat)] else []) ++ cs ++ [[]] ++ scriptPart prevLines) ∧
    headerPart prevLines <+: prevLines ∧
    scriptPart prevLines <:+ prevLines ∧
    update_index_coll (some prevLines) [] =
      some (headerPart prevLines ++
        (if headerPart prevLines ≠ [] ∧ ¬ isBlankL ((headerPart prevLines).getLastD [])
          then [([] : List Nat)] else []) ++ [[]] ++ scriptPart prevLines) ∧
    (∀ meta body rl, buildRedirectLines meta = some rl →
      update_index_uc meta body =
        some (meta.map rstripNl ++ rl.map rstripNl ++ (pySortedSet body).map rstripNl)) := by
  refine ⟨rfl, List.takeWhile_prefix _, scriptPart_suffix prevLines, ?_, ?_⟩
  · unfold update_index_coll
    dsimp only []
    simp
  · intro meta body rl hrl
    unfold update_index_uc
    rw [hrl]

theorem C3_collector_frame_preserved_witness :
    buildRedirectLines defaultMeta = some ((buildRedirectLines defaultMeta).getD []) ∧
    update_index_coll (some [bytes (r"#t"), bytes (r"old"), bytes (r"<script>x")])
        [bytes (r"c")] =
      some (headerPart [bytes (r"#t"), bytes (r"old"), bytes (r"<script>x")] ++
        (if headerPart [bytes (r"#t"), bytes (r"old"), bytes (r"<script>x")] ≠ [] ∧
            ¬ isBlankL ((headerPart [bytes (r"#t"), bytes (r"old"),
              bytes (r"<script>x")]).getLastD [])
          then [([] : List Nat)] else []) ++ [bytes (r"c")] ++ [[]] ++
        scriptPart [bytes (r"#t"), bytes (r"old"), bytes (r"<script>x")]) ∧
    headerPart [bytes (r"#t"), bytes (r"old"), bytes (r"<script>x")] <+:
      [bytes (r"#t"), bytes (r"old"), bytes (r"<script>x")] ∧
    scriptPart [bytes (r"#t"), bytes (r"old"), bytes (r"<script>x")] <:+
      [bytes (r"#t"), bytes (r"old"), bytes (r"<script>x")] ∧
    update_index_coll (some [bytes (r"#t"), bytes (r"old"), bytes (r"<script>x")]) [] =
      some (headerPart [bytes (r"#t"), bytes (r"old"), bytes (r"<script>x")] ++
        (if headerPart [bytes (r"#t"), bytes (r"old"), bytes (r"<script>x")] ≠ [] ∧
            ¬ isBlankL ((headerPart [bytes (r"#t"), bytes (r"old"),
              bytes (r"<script>x")]).getLastD [])
          then [([] : List Nat)] else []) ++ [[]] ++
        scriptPart [bytes (r"#t"), bytes (r"old"), bytes (r"<script>x")]) ∧
    (∀ meta body rl, buildRedirectLines meta = some rl →
      update_index_uc meta body =
        some (meta.map rstripNl ++ rl.map rstripNl ++ (pySortedSet body).map rstripNl)) := by
  refine ⟨by decide, ?_⟩
  exact C3_collector_frame_preserved [bytes (r"#t"), bytes (r"old"), bytes (r"<script>x")]
    [bytes (r"c")]

/-- C5 counterexample: the claim is false for the collector — when the
previous artifact is missing, `collector.update_index_file` returns without
writing anything at all, so no artifact (valid or otherwise) is produced. -/
theorem C5_missing_artifact_no_write_cex :
    update_index_coll none [bytes (r"vless://u@h:443?security=tls#x")] = none := by
  rfl

/-- C5 amended: `update_configs` falls back to the documented default
metadata when the previous artifact is missing or carries no leading `#`
lines, and (whenever the profile-title scan does not itself raise) always
writes a complete artifact; the collector survives a missing `<script>`
marker by writing an empty tail — but when the previous artifact file is
missing it completes without error writing nothing. -/
theorem C5_fallback_defaults (lines meta cs : List (List Nat)) (rl : List (List Nat))
    (hempty : (lines.takeWhile (fun l => startsWithB [35] l)).map rstripNl = [])
    (hrl : buildRedirectLines meta = some rl) :
    read_existing_meta none = defaultMeta ∧
    read_existing_meta (some lines) = defaultMeta ∧
    update_index_uc meta cs =
      some (meta.map rstripNl ++ rl.map rstripNl ++ (pySortedSet cs).map rstripNl) ∧
    (∀ prev body, (∀ l ∈ prev, containsSub scriptTag l = false) →
      update_index_coll (some prev) body =
        some (headerPart prev ++
          (if headerPart prev ≠ [] ∧ ¬ isBlankL ((headerPart prev).getLastD [])
            then [([] : List Nat)] else []) ++ body ++ [[]])) := by
  refine ⟨rfl, ?_, ?_, ?_⟩
  · unfold read_existing_meta
    dsimp only []
    rw [if_pos hempty]
  · unfold update_index_uc
    rw [hrl]
  · intro prev body hno
    unfold update_index_coll
    dsimp only []
    rw [scriptPart_eq_nil prev hno]
    simp

theorem C5_fallback_defaults_witness :
    ((([bytes (r"x"), bytes (r"#late")] :
        List (List Nat)).takeWhile (fun l => startsWithB [35] l)).map rstripNl = [] ∧
      buildRedirectLines defaultMeta = some ((buildRedirectLines defaultMeta).getD [])) ∧
    (read_existing_meta none = defaultMeta ∧
    read_existing_meta (some [bytes (r"x"), bytes (r"#late")]) = defaultMeta ∧
    update_index_uc defaultMeta [bytes (r"c")] =
      some (defaultMeta.map rstripNl ++
        ((buildRedirectLines defaultMeta).getD []).map rstripNl ++
        (pySortedSet [bytes (r"c")]).map rstripNl) ∧
    (∀ prev body, (∀ l ∈ prev, containsSub scriptTag l = false) →
      update_index_coll (some prev) body =
        some (headerPart prev ++
          (if headerPart prev ≠ [] ∧ ¬ isBlankL ((headerPart prev).getLastD [])
            then [([] : List Nat)] else []) ++ body ++ [[]]))) := by
  refine ⟨⟨by decide, by decide⟩, ?_⟩
  exact C5_fallback_defaults [bytes (r"x"), bytes (r"#late")] defaultMeta [bytes (r"c")]
    ((buildRedirectLines defaultMeta).getD []) (by decide) (by decide)

theorem C2_vmess_roundtrip_witness :
    decodeVmessPayload (encodeVmessPayload c2Payload) = some c2Payload ∧
    c2Payload ≠ [] ∧
    (remarkVmess (vmessScheme ++ encodeVmessPayload c2Payload) =
      some (vmessScheme ++ encodeVmessPayload (dictSet c2Payload psKey (.jstr REMARK))) ∧
    decodeVmessPayload (encodeVmessPayload (dictSet c2Payload psKey (.jstr REMARK))) =
      some (dictSet c2Payload psKey (.jstr REMARK)) ∧
    (∀ k, k ≠ psKey →
      dictGet (dictSet c2Payload psKey (.jstr REMARK)) k = dictGet c2Payload k) ∧
    dictGet (dictSet c2Payload psKey (.jstr REMARK)) psKey = some (.jstr REMARK)) := by
  have hdec : decodeVmessPayload (encodeVmessPayload c2Payload) = some c2Payload :=
    decodeVmess_encode c2Payload wfPayload_c2Payload
  exact ⟨hdec, by decide,
    C2_vmess_roundtrip (encodeVmessPayload c2Payload) c2Payload hdec (by decide)⟩

end Hiddify

